import Mathlib

/-!
Verification of the songwalker-js preset-loader catalog/cache engine
(`src/preset-loader.ts`), shallowly embedded in Lean 4.

Conventions:
* JS `Map` objects are modelled as association lists in insertion order
  (head = oldest / least recently used for the LRU cache's backing map).
* JS `Set` objects are modelled as duplicate-free lists in insertion order.
* Network fetches and the WebAudio decode capability are supplied by an
  explicit environment record; stateful methods of `PresetLoader` become
  functions taking and returning an explicit `LoaderState`, additionally
  returning the list of URLs fetched during the call (the fetch trace).
* `async`/`await` concurrency is modelled as in-order sequential execution,
  matching the single-threaded cooperative model of the host language.
-/

namespace Songwalker

/-- First value stored under key `k` in an association list
(JS `Map.prototype.get`; `Map` keys are unique so this is the unique value). -/
def findVal {K V : Type} [DecidableEq K] (k : K) : List (K × V) → Option V
  | [] => none
  | p :: rest => if p.1 = k then some p.2 else findVal k rest

/-- Remove the first entry with key `k` (JS `Map.prototype.delete`),
preserving the insertion order of the remaining entries. -/
def eraseKey {K V : Type} [DecidableEq K] (k : K) : List (K × V) → List (K × V)
  | [] => []
  | p :: rest => if p.1 = k then rest else p :: eraseKey k rest

/-- The bounded LRU cache of `preset-loader.ts` (`class LRUCache<K, V>`).
`entries` models the backing `Map` in insertion order: the head is the
least-recently-used entry, the last element the most-recently-used. -/
structure LRUCache (K V : Type) where
  maxSize : Nat
  entries : List (K × V)
deriving Repr, DecidableEq

namespace LRUCache

variable {K V : Type} [DecidableEq K]

/-- `new LRUCache(maxSize)` -/
def empty (K V : Type) (maxSize : Nat) : LRUCache K V := ⟨maxSize, []⟩

/-- `get size()` -/
def size (c : LRUCache K V) : Nat := c.entries.length

/-- `has(key)` -/
def has (c : LRUCache K V) (k : K) : Bool := (findVal k c.entries).isSome

/-- `get(key)`: on a hit, delete and re-insert the key, moving it to the
most-recently-used (last) position; returns the value and updated cache. -/
def get (c : LRUCache K V) (k : K) : Option V × LRUCache K V :=
  match findVal k c.entries with
  | none => (none, c)
  | some v => (some v, { c with entries := eraseKey k c.entries ++ [(k, v)] })

/-- `set(key, value)`: an existing key is deleted then re-appended (update +
promote); a new key at capacity first evicts the oldest entry.  When the
backing map is empty, `cache.keys().next().value` is `undefined` at runtime
and `delete(undefined)` is a no-op, which `List.drop 1 [] = []` models. -/
def set (c : LRUCache K V) (k : K) (v : V) : LRUCache K V :=
  if (findVal k c.entries).isSome then
    { c with entries := eraseKey k c.entries ++ [(k, v)] }
  else if c.maxSize ≤ c.entries.length then
    { c with entries := c.entries.drop 1 ++ [(k, v)] }
  else
    { c with entries := c.entries ++ [(k, v)] }

/-- `clear()` -/
def clear (c : LRUCache K V) : LRUCache K V := { c with entries := [] }

/-- Run a sequence of `set` operations, oldest first. -/
def setAll (c : LRUCache K V) : List (K × V) → LRUCache K V
  | [] => c
  | p :: rest => setAll (c.set p.1 p.2) rest

end LRUCache

section LRULemmas

variable {K V : Type} [DecidableEq K]

theorem findVal_eq_none_iff (k : K) (es : List (K × V)) :
    findVal k es = none ↔ k ∉ es.map Prod.fst := by
  induction es with
  | nil => simp [findVal]
  | cons p rest ih =>
    simp only [List.map_cons, List.mem_cons, findVal]
    by_cases h : p.1 = k
    · simp [h]
    · simp only [h, if_false, ih]
      constructor
      · intro hn hor
        rcases hor with he | hm
        · exact h he.symm
        · exact hn hm
      · intro hn hm
        exact hn (Or.inr hm)

theorem findVal_append_none (k : K) (es fs : List (K × V)) :
    findVal k (es ++ fs) = none ↔ findVal k es = none ∧ findVal k fs = none := by
  induction es with
  | nil => simp [findVal]
  | cons p rest ih =>
    by_cases h : p.1 = k
    · simp [findVal, h]
    · simp [findVal, h, ih]

theorem findVal_singleton_none (k : K) (q : K × V) :
    findVal k [q] = none ↔ q.1 ≠ k := by
  by_cases h : q.1 = k <;> simp [findVal, h]

theorem eraseKey_length (k : K) (es : List (K × V)) (v : V)
    (h : findVal k es = some v) : (eraseKey k es).length + 1 = es.length := by
  induction es with
  | nil => simp [findVal] at h
  | cons p rest ih =>
    by_cases hp : p.1 = k
    · simp [eraseKey, hp]
    · simp only [findVal, hp, if_false] at h
      simp [eraseKey, hp, ih h]

theorem findVal_eraseKey_none (k k' : K) (es : List (K × V))
    (h : findVal k es = none) : findVal k (eraseKey k' es) = none := by
  induction es with
  | nil => simp [eraseKey, findVal]
  | cons p rest ih =>
    by_cases hp : p.1 = k
    · simp [findVal, hp] at h
    · simp only [findVal, hp, if_false] at h
      by_cases hq : p.1 = k'
      · simpa [eraseKey, hq] using h
      · simp [eraseKey, hq, findVal, hp, ih h]

theorem setAll_append (c : LRUCache K V) (xs ys : List (K × V)) :
    c.setAll (xs ++ ys) = (c.setAll xs).setAll ys := by
  induction xs generalizing c with
  | nil => rfl
  | cons p rest ih => simp [LRUCache.setAll, ih]

/-- Filling a cache with fresh, pairwise-distinct keys below capacity simply
appends them in order, with no eviction. -/
theorem setAll_fresh_append (ps : List (K × V)) (c : LRUCache K V)
    (hfresh : ∀ q ∈ ps, findVal q.1 c.entries = none)
    (hnodup : (ps.map Prod.fst).Nodup)
    (hroom : c.entries.length + ps.length ≤ c.maxSize) :
    c.setAll ps = ⟨c.maxSize, c.entries ++ ps⟩ := by
  induction ps generalizing c with
  | nil => simp [LRUCache.setAll]
  | cons p rest ih =>
    have hfp : findVal p.1 c.entries = none := hfresh p (by simp)
    have hlt : c.entries.length < c.maxSize := by
      simp only [List.length_cons] at hroom
      omega
    have hstep : c.set p.1 p.2 = { c with entries := c.entries ++ [p] } := by
      simp [LRUCache.set, hfp, Nat.not_le.mpr hlt]
    simp only [LRUCache.setAll, hstep]
    have hnodup' : (rest.map Prod.fst).Nodup := by
      simpa using hnodup.of_cons
    have hpn : p.1 ∉ rest.map Prod.fst := by
      simp only [List.map_cons, List.nodup_cons] at hnodup
      exact hnodup.1
    have hfresh' : ∀ q ∈ rest, findVal q.1 (c.entries ++ [p]) = none := by
      intro q hq
      rw [findVal_append_none, findVal_singleton_none]
      refine ⟨hfresh q (by simp [hq]), ?_⟩
      intro hpq
      exact hpn (hpq ▸ List.mem_map_of_mem Prod.fst hq)
    have := ih { c with entries := c.entries ++ [p] } hfresh' hnodup'
      (by simp only [List.length_append, List.length_singleton]
          simp only [List.length_cons] at hroom; omega)
    simpa [List.append_assoc] using this

theorem findVal_drop_one_none (k : K) (es : List (K × V))
    (h : findVal k es = none) : findVal k (es.drop 1) = none := by
  cases es with
  | nil => exact h
  | cons p rest =>
    by_cases hp : p.1 = k
    · simp [findVal, hp] at h
    · simp only [findVal, hp, if_false] at h
      exact h

/-- Core recency lemma: if `k` sits at depth `pre.length` from the LRU end,
then inserting fresh distinct keys whose count fits in the budget
`pre.length + (maxSize - size)` never evicts `k`. -/
theorem setAll_fresh_survives (ks : List (K × V)) :
    ∀ (c : LRUCache K V) (k : K) (v : V) (pre post : List (K × V)),
    c.entries = pre ++ (k, v) :: post →
    (∀ q ∈ ks, findVal q.1 c.entries = none) →
    (ks.map Prod.fst).Nodup →
    c.entries.length ≤ c.maxSize →
    ks.length + c.entries.length ≤ pre.length + c.maxSize →
    k ∈ (c.setAll ks).entries.map Prod.fst := by
  induction ks with
  | nil =>
    intro c k v pre post hdec _ _ _ _
    simp [LRUCache.setAll, hdec]
  | cons q rest ih =>
    intro c k v pre post hdec hfresh hnodup hlen hbudget
    have hfq : findVal q.1 c.entries = none := hfresh q (by simp)
    have hqn : q.1 ∉ rest.map Prod.fst := by
      simp only [List.map_cons, List.nodup_cons] at hnodup
      exact hnodup.1
    have hnodup' : (rest.map Prod.fst).Nodup := by simpa using hnodup.of_cons
    have hrq : ∀ r ∈ rest, r.1 ≠ q.1 := by
      intro r hr hrq
      exact hqn (hrq ▸ List.mem_map_of_mem Prod.fst hr)
    have hlenc : c.entries.length = pre.length + post.length + 1 := by
      simp only [hdec, List.length_append, List.length_cons]
      omega
    by_cases hcap : c.maxSize ≤ c.entries.length
    · -- eviction branch: the head of `pre` is evicted
      have hpre : pre ≠ [] := by
        intro hnil
        subst hnil
        simp only [List.length_cons, List.length_nil] at hbudget hlenc
        omega
      obtain ⟨p0, pre', rfl⟩ := List.exists_cons_of_ne_nil hpre
      have hstep : c.set q.1 q.2 =
          (⟨c.maxSize, c.entries.drop 1 ++ [q]⟩ : LRUCache K V) := by
        simp [LRUCache.set, hfq, hcap]
      simp only [LRUCache.setAll, hstep]
      have hdrop : c.entries.drop 1 ++ [q] = pre' ++ (k, v) :: (post ++ [q]) := by
        rw [hdec]
        simp [List.append_assoc]
      refine ih ⟨c.maxSize, c.entries.drop 1 ++ [q]⟩ k v pre' (post ++ [q])
        hdrop ?_ hnodup' ?_ ?_
      · intro r hr
        show findVal r.1 (c.entries.drop 1 ++ [q]) = none
        rw [findVal_append_none]
        refine ⟨findVal_drop_one_none _ _ (hfresh r (by simp [hr])), ?_⟩
        rw [findVal_singleton_none]
        exact fun h => hrq r hr h.symm
      · show (c.entries.drop 1 ++ [q]).length ≤ c.maxSize
        simp only [List.length_append, List.length_drop, List.length_cons,
          List.length_nil] at hlenc hbudget ⊢
        omega
      · show rest.length + (c.entries.drop 1 ++ [q]).length ≤
          pre'.length + c.maxSize
        simp only [List.length_append, List.length_drop, List.length_cons,
          List.length_nil] at hlenc hbudget ⊢
        omega
    · -- room left: plain append, nothing evicted
      have hstep : c.set q.1 q.2 =
          (⟨c.maxSize, c.entries ++ [q]⟩ : LRUCache K V) := by
        simp [LRUCache.set, hfq, hcap]
      simp only [LRUCache.setAll, hstep]
      have happ : c.entries ++ [q] = pre ++ (k, v) :: (post ++ [q]) := by
        rw [hdec]; simp [List.append_assoc]
      refine ih ⟨c.maxSize, c.entries ++ [q]⟩ k v pre (post ++ [q])
        happ ?_ hnodup' ?_ ?_
      · intro r hr
        show findVal r.1 (c.entries ++ [q]) = none
        rw [findVal_append_none]
        refine ⟨hfresh r (by simp [hr]), ?_⟩
        rw [findVal_singleton_none]
        exact fun h => hrq r hr h.symm
      · show (c.entries ++ [q]).length ≤ c.maxSize
        simp only [List.length_append, List.length_cons, List.length_nil]
        omega
      · show rest.length + (c.entries ++ [q]).length ≤ pre.length + c.maxSize
        simp only [List.length_append, List.length_cons, List.length_nil]
          at hbudget ⊢
        omega

end LRULemmas

/-- **C1** (amended to capacities `n ≥ 1`).  For every capacity `n ≥ 1`:
(a) `entries.size ≤ maxSize` is preserved by every `set`, and `get` never
changes the size; (b) inserting `n + 1` pairwise-distinct keys into a fresh
cache of capacity `n` with no intervening reads leaves exactly the last `n`
insertions in order, so the single evicted key is the first-inserted
(least-recently-used) one, which is absent afterward. -/
theorem lru_bound_and_fifo_eviction {K V : Type} [DecidableEq K]
    (n : Nat) (hn : 1 ≤ n) :
    (∀ (c : LRUCache K V) (k : K) (v : V), c.maxSize = n → c.size ≤ n →
      ((c.set k v).size ≤ n ∧ ((c.get k).2).size = c.size)) ∧
    (∀ (p : K × V) (rest : List (K × V)),
      (((p :: rest).map Prod.fst).Nodup) → rest.length = n →
      ((LRUCache.empty K V n).setAll (p :: rest)).entries = rest ∧
      findVal p.1 ((LRUCache.empty K V n).setAll (p :: rest)).entries = none) := by
  constructor
  · intro c k v hmax hsz
    constructor
    · rcases hv : findVal k c.entries with _ | v'
      · by_cases hcap : c.maxSize ≤ c.entries.length
        · have hstep : c.set k v = ⟨c.maxSize, c.entries.drop 1 ++ [(k, v)]⟩ := by
            simp [LRUCache.set, hv, hcap]
          rw [hstep]
          show (c.entries.drop 1 ++ [(k, v)]).length ≤ n
          simp only [List.length_append, List.length_drop, List.length_cons,
            List.length_nil]
          unfold LRUCache.size at hsz
          omega
        · have hstep : c.set k v = ⟨c.maxSize, c.entries ++ [(k, v)]⟩ := by
            simp [LRUCache.set, hv, hcap]
          rw [hstep]
          show (c.entries ++ [(k, v)]).length ≤ n
          simp only [List.length_append, List.length_cons, List.length_nil]
          omega
      · have hstep : c.set k v = ⟨c.maxSize, eraseKey k c.entries ++ [(k, v)]⟩ := by
          simp [LRUCache.set, hv]
        rw [hstep]
        show (eraseKey k c.entries ++ [(k, v)]).length ≤ n
        have hek := eraseKey_length k c.entries v' hv
        simp only [List.length_append, List.length_cons, List.length_nil]
        unfold LRUCache.size at hsz
        omega
    · rcases hv : findVal k c.entries with _ | v'
      · simp [LRUCache.get, hv]
      · have hek := eraseKey_length k c.entries v' hv
        simp only [LRUCache.get, hv, LRUCache.size]
        simp only [List.length_append, List.length_cons, List.length_nil]
        omega
  · intro p rest hnodup hlenr
    obtain ⟨front, last, rfl⟩ : ∃ front last, rest = front ++ [last] := by
      rcases List.eq_nil_or_concat rest with h | ⟨front, last, h⟩
      · exfalso
        rw [h] at hlenr
        simp at hlenr
        omega
      · exact ⟨front, last, by simpa [List.concat_eq_append] using h⟩
    have hkeys : (p.1 :: (front.map Prod.fst ++ [last.1])).Nodup := by
      simpa [List.map_append] using hnodup
    rw [List.nodup_cons] at hkeys
    have hpfr : p.1 ∉ front.map Prod.fst ++ [last.1] := hkeys.1
    have hfl : (front.map Prod.fst ++ [last.1]).Nodup := hkeys.2
    rw [List.nodup_append] at hfl
    have hlastfr : last.1 ∉ front.map Prod.fst := by
      intro hm
      exact (hfl.2.2 hm) (by simp)
    have hlastp : last.1 ≠ p.1 := by
      intro h
      exact hpfr (h ▸ (by simp : last.1 ∈ front.map Prod.fst ++ [last.1]))
    have hflen : front.length + 1 = n := by
      simpa using hlenr
    have hsplit : (p :: (front ++ [last])) = (p :: front) ++ [last] := by simp
    rw [hsplit, setAll_append]
    have hfill : (LRUCache.empty K V n).setAll (p :: front) =
        ⟨n, [] ++ (p :: front)⟩ := by
      apply setAll_fresh_append
      · intro q _
        rfl
      · rw [List.map_cons, List.nodup_cons]
        exact ⟨fun hm => hpfr (by simp [hm]), hfl.1⟩
      · show 0 + (front.length + 1) ≤ n
        omega
    rw [hfill]
    have hmiss : findVal last.1 (p :: front) = none := by
      rw [findVal_eq_none_iff]
      intro hm
      rcases (by simpa using hm : last.1 = p.1 ∨ last.1 ∈ front.map Prod.fst) with
        h | h
      · exact hlastp h
      · exact hlastfr h
    have hstep : (⟨n, [] ++ (p :: front)⟩ : LRUCache K V).set last.1 last.2 =
        ⟨n, front ++ [last]⟩ := by
      have hcap : n ≤ ([] ++ (p :: front) : List (K × V)).length := by
        simp only [List.nil_append, List.length_cons]
        omega
      simp only [LRUCache.set, hmiss, Option.isSome_none, Bool.false_eq_true,
        if_false, List.nil_append]
      rw [if_pos (by simpa using hcap)]
      simp
    show ((⟨n, [] ++ (p :: front)⟩ : LRUCache K V).set last.1 last.2).entries =
        front ++ [last] ∧
      findVal p.1
        ((⟨n, [] ++ (p :: front)⟩ : LRUCache K V).set last.1 last.2).entries =
        none
    rw [hstep]
    refine ⟨rfl, ?_⟩
    rw [findVal_eq_none_iff]
    intro hm
    rw [List.map_append] at hm
    rcases List.mem_append.mp hm with h | h
    · exact hpfr (List.mem_append.mpr (Or.inl h))
    · have hpl : p.1 = last.1 := by simpa using h
      exact hlastp hpl.symm

/-- **C1 counterexample**: at capacity `n = 0` the invariant fails — a single
insertion into a fresh capacity-0 cache takes the eviction branch, but the
backing map is empty (`keys().next().value` is `undefined`, `delete` is a
no-op), so the new entry is inserted and `entries.size = 1 > 0 = maxSize`. -/
theorem lru_capacity_zero_violates_bound :
    ¬ (((LRUCache.empty String Nat 0).set "a" 0).size ≤
        ((LRUCache.empty String Nat 0).set "a" 0).maxSize) := by
  decide

theorem lru_bound_and_fifo_eviction_witness :
    ((LRUCache.empty String Nat 2).setAll
        [("a", 0), ("b", 1), ("c", 2)]).entries = [("b", 1), ("c", 2)] ∧
    findVal "a" ((LRUCache.empty String Nat 2).setAll
        [("a", 0), ("b", 1), ("c", 2)]).entries = none :=
  (lru_bound_and_fifo_eviction 2 (by decide)).2 ("a", 0) [("b", 1), ("c", 2)]
    (by decide) (by decide)

/-- **C3** (amended: inserting at most `n - 1` further distinct new keys
cannot evict the key read via `get`; the `n`-th insertion can).  A `get` hit
returns the stored value, leaves the size unchanged, and promotes the key to
the most-recently-used (last) position; afterwards any sequence of fresh
pairwise-distinct keys of length `≤ maxSize - 1` leaves the key present. -/
theorem lru_get_promotes_and_recency {K V : Type} [DecidableEq K]
    (c : LRUCache K V) (k : K) (v : V) (ks : List (K × V))
    (hhit : findVal k c.entries = some v)
    (hlen : c.entries.length ≤ c.maxSize)
    (hfresh : ∀ q ∈ ks, findVal q.1 c.entries = none)
    (hnodup : (ks.map Prod.fst).Nodup)
    (hcount : ks.length + 1 ≤ c.maxSize) :
    (c.get k).1 = some v ∧
    (c.get k).2.size = c.size ∧
    ((c.get k).2).entries.getLast? = some (k, v) ∧
    k ∈ (((c.get k).2).setAll ks).entries.map Prod.fst := by
  have hget : c.get k = (some v, ⟨c.maxSize, eraseKey k c.entries ++ [(k, v)]⟩) := by
    simp [LRUCache.get, hhit]
  have hek := eraseKey_length k c.entries v hhit
  refine ⟨by rw [hget], ?_, ?_, ?_⟩
  · rw [hget]
    show (eraseKey k c.entries ++ [(k, v)]).length = c.entries.length
    simp only [List.length_append, List.length_cons, List.length_nil]
    omega
  · rw [hget]
    exact List.getLast?_concat _
  · rw [hget]
    refine setAll_fresh_survives ks _ k v (eraseKey k c.entries) [] rfl ?_ hnodup
      ?_ ?_
    · intro q hq
      show findVal q.1 (eraseKey k c.entries ++ [(k, v)]) = none
      rw [findVal_append_none, findVal_singleton_none]
      refine ⟨findVal_eraseKey_none _ _ _ (hfresh q hq), ?_⟩
      intro hqk
      have hk : k = q.1 := hqk
      rw [hk, hfresh q hq] at hhit
      exact Option.noConfusion hhit
    · show (eraseKey k c.entries ++ [(k, v)]).length ≤ c.maxSize
      simp only [List.length_append, List.length_cons, List.length_nil]
      omega
    · show ks.length + (eraseKey k c.entries ++ [(k, v)]).length ≤
        (eraseKey k c.entries).length + c.maxSize
      simp only [List.length_append, List.length_cons, List.length_nil]
      omega

/-- **C3 counterexample**: with capacity `n = 1` the original claim fails —
`"a"` is present and is the most recently touched entry after the `get`, yet
inserting `n = 1` further distinct new key (`"b"`) evicts it: inserting `n`
fresh keys into a capacity-`n` cache always evicts every pre-existing entry,
promoted or not. -/
theorem lru_recency_n_inserts_evicts :
    ((⟨1, [("a", 1)]⟩ : LRUCache String Nat).get "a").1 = some 1 ∧
    "a" ∉ (((((⟨1, [("a", 1)]⟩ : LRUCache String Nat).get "a").2).set
        "b" 2).entries.map Prod.fst) := by
  decide

theorem lru_get_promotes_and_recency_witness :
    ((⟨2, [("x", 9), ("a", 1)]⟩ : LRUCache String Nat).get "a").1 = some 1 ∧
    ((⟨2, [("x", 9), ("a", 1)]⟩ : LRUCache String Nat).get "a").2.size =
      (⟨2, [("x", 9), ("a", 1)]⟩ : LRUCache String Nat).size ∧
    (((⟨2, [("x", 9), ("a", 1)]⟩ : LRUCache String Nat).get "a").2).entries.getLast? =
      some ("a", 1) ∧
    "a" ∈ ((((⟨2, [("x", 9), ("a", 1)]⟩ : LRUCache String Nat).get "a").2).setAll
        [("c", 3)]).entries.map Prod.fst :=
  lru_get_promotes_and_recency _ "a" 1 [("c", 3)] (by decide) (by decide)
    (by decide) (by decide) (by decide)

-- ── String helpers (JS string methods, modelled on the char list) ──

/-- JS `String.prototype.toLowerCase` (ASCII case folding). -/
def jsLower (s : String) : String := ⟨s.data.map Char.toLower⟩

/-- JS `name.replace(/_/g, ' ')`. -/
def underscoresToSpaces (s : String) : String :=
  ⟨s.data.map (fun c => if c = '_' then ' ' else c)⟩

/-- Is `needle` a contiguous sublist of the second argument? -/
def subListAt (needle : List Char) : List Char → Bool
  | [] => needle.isEmpty
  | c :: rest => needle.isPrefixOf (c :: rest) || subListAt needle rest

/-- JS `hay.includes(needle)`. -/
def strIncludes (hay needle : String) : Bool := subListAt needle.data hay.data

/-- JS `s.startsWith(pre)`. -/
def strStarts (s pre : String) : Bool := pre.data.isPrefixOf s.data

/-- `dirOf` from `preset-loader.ts`: parent directory of a URL — everything
before the last `'/'`, or the whole URL when there is no `'/'` past index 0. -/
def lastIdxOf (c : Char) : List Char → Option Nat
  | [] => none
  | x :: rest =>
    match lastIdxOf c rest with
    | some i => some (i + 1)
    | none => if x = c then some 0 else none

def dirOf (url : String) : String :=
  match lastIdxOf '/' url.data with
  | some i => if 0 < i then ⟨url.data.take i⟩ else url
  | none => url

-- ── Catalog data model (`preset-types.ts` shapes used by the loader) ──

/-- A sub-index entry of an index document (`type: "index"`). -/
structure SubIndexEntry where
  name : String
  path : String
deriving Repr, DecidableEq

/-- A preset leaf entry of an index document (`type: "preset"`). -/
structure PresetEntry where
  name : String
  path : String
  category : String
  tags : List String
  gmProgram : Option Nat
deriving Repr, DecidableEq

/-- `IndexEntry = SubIndexEntry | PresetEntry`, discriminated by `type`. -/
inductive IndexEntry where
  | index (e : SubIndexEntry)
  | preset (e : PresetEntry)
deriving Repr, DecidableEq

/-- One index document (root or library level). -/
structure PresetIndex where
  name : String
  entries : List IndexEntry
deriving Repr, DecidableEq

-- ── Library-name resolution (`loadLibrary`, lines 240–263) ──

/-- `entries.find(e => e.type === 'index' && p(e))`: the common shape of the
three resolution tiers. -/
def tierFilter (p : SubIndexEntry → Bool) : IndexEntry → Option SubIndexEntry
  | .index s => if p s then some s else none
  | .preset _ => none

/-- Tier 1: exact match on `entry.name`. -/
def libTier1 (name : String) : IndexEntry → Option SubIndexEntry :=
  tierFilter (fun s => s.name == name)

/-- Tier 2: case-insensitive match after underscore→space normalization of
both sides. -/
def libTier2 (name : String) : IndexEntry → Option SubIndexEntry :=
  tierFilter (fun s =>
    jsLower (underscoresToSpaces s.name) == jsLower (underscoresToSpaces name))

/-- Tier 3: `entry.path.startsWith(name + "/")`. -/
def libTier3 (name : String) : IndexEntry → Option SubIndexEntry :=
  tierFilter (fun s => strStarts s.path (name ++ "/"))

/-- The three-tier fallback of `loadLibrary` over the root index entries;
`none` models the thrown `Library not found` error. -/
def findLibEntry (name : String) (entries : List IndexEntry) :
    Option SubIndexEntry :=
  match entries.findSome? (libTier1 name) with
  | some s => some s
  | none =>
    match entries.findSome? (libTier2 name) with
    | some s => some s
    | none => entries.findSome? (libTier3 name)

theorem findSome?_tierFilter_none_iff (p : SubIndexEntry → Bool)
    (entries : List IndexEntry) :
    entries.findSome? (tierFilter p) = none ↔
      ∀ s, IndexEntry.index s ∈ entries → p s = false := by
  rw [List.findSome?_eq_none_iff]
  constructor
  · intro h s hs
    have := h _ hs
    by_cases hp : p s
    · simp [tierFilter, hp] at this
    · simpa using hp
  · intro h e he
    cases e with
    | index s => simp [tierFilter, h s he]
    | preset _ => rfl

theorem findLibEntry_cases (name : String) (entries : List IndexEntry) :
    findLibEntry name entries = none ↔
      entries.findSome? (libTier1 name) = none ∧
      entries.findSome? (libTier2 name) = none ∧
      entries.findSome? (libTier3 name) = none := by
  unfold findLibEntry
  rcases h1 : entries.findSome? (libTier1 name) with _ | s1
  · rcases h2 : entries.findSome? (libTier2 name) with _ | s2
    · simp
    · simp
  · simp

/-- **C4**: `loadLibrary` resolves `name` against sub-index entries in
exactly the order tier 1 (exact `entry.name`), tier 2 (case-insensitive with
underscores replaced by spaces on both sides), tier 3 (`entry.path` starts
with `name ++ "/"`), failing (`none`) iff no tier matches; and
`"FluidR3_GM"` resolves successfully whether the index lists the library as
`"FluidR3_GM"`, as `"FluidR3 GM"`, or only via path `"FluidR3_GM/index.json"`
under an unrelated display name. -/
theorem loadLibrary_three_tier_resolution :
    (∀ (name : String) (entries : List IndexEntry),
      (findLibEntry name entries = none ↔
        ∀ s, IndexEntry.index s ∈ entries →
          (s.name == name) = false ∧
          (jsLower (underscoresToSpaces s.name) ==
            jsLower (underscoresToSpaces name)) = false ∧
          strStarts s.path (name ++ "/") = false) ∧
      (entries.findSome? (libTier1 name) ≠ none →
        findLibEntry name entries = entries.findSome? (libTier1 name)) ∧
      (entries.findSome? (libTier1 name) = none →
        entries.findSome? (libTier2 name) ≠ none →
        findLibEntry name entries = entries.findSome? (libTier2 name)) ∧
      (entries.findSome? (libTier1 name) = none →
        entries.findSome? (libTier2 name) = none →
        findLibEntry name entries = entries.findSome? (libTier3 name))) ∧
    findLibEntry "FluidR3_GM"
      [.index ⟨"FluidR3_GM", "FluidR3_GM/index.json"⟩] =
      some ⟨"FluidR3_GM", "FluidR3_GM/index.json"⟩ ∧
    findLibEntry "FluidR3_GM"
      [.index ⟨"FluidR3 GM", "FluidR3_GM/index.json"⟩] =
      some ⟨"FluidR3 GM", "FluidR3_GM/index.json"⟩ ∧
    findLibEntry "FluidR3_GM"
      [.index ⟨"Fluid R3 General MIDI", "FluidR3_GM/index.json"⟩] =
      some ⟨"Fluid R3 General MIDI", "FluidR3_GM/index.json"⟩ := by
  refine ⟨?_, by decide, by decide, by decide⟩
  intro name entries
  refine ⟨?_, ?_, ?_, ?_⟩
  · rw [findLibEntry_cases]
    unfold libTier1 libTier2 libTier3
    rw [findSome?_tierFilter_none_iff, findSome?_tierFilter_none_iff,
      findSome?_tierFilter_none_iff]
    constructor
    · intro ⟨h1, h2, h3⟩ s hs
      exact ⟨h1 s hs, h2 s hs, h3 s hs⟩
    · intro h
      exact ⟨fun s hs => (h s hs).1, fun s hs => (h s hs).2.1,
        fun s hs => (h s hs).2.2⟩
  · intro h1
    rcases hv : entries.findSome? (libTier1 name) with _ | s1
    · exact absurd hv h1
    · unfold findLibEntry
      rw [hv]
  · intro h1 h2
    rcases hv : entries.findSome? (libTier2 name) with _ | s2
    · exact absurd hv h2
    · unfold findLibEntry
      rw [h1, hv]
  · intro h1 h2
    unfold findLibEntry
    rw [h1, h2]

theorem loadLibrary_three_tier_resolution_witness :
    findLibEntry "FluidR3_GM"
      ([.preset ⟨"p", "p.json", "synth", [], none⟩,
        .index ⟨"FluidR3 GM", "FluidR3_GM/index.json"⟩] : List IndexEntry) =
      List.findSome? (libTier2 "FluidR3_GM")
        [.preset ⟨"p", "p.json", "synth", [], none⟩,
         .index ⟨"FluidR3 GM", "FluidR3_GM/index.json"⟩] :=
  ((loadLibrary_three_tier_resolution.1 "FluidR3_GM"
      [.preset ⟨"p", "p.json", "synth", [], none⟩,
       .index ⟨"FluidR3 GM", "FluidR3_GM/index.json"⟩]).2.2.1
    (by decide) (by decide))

-- ── Loader state, environment, and index loading ──

/-- Sampler data referenced by a preset descriptor's `node.config`. -/
inductive AudioReference where
  | external (path url sha256 : Option String)
  | contentAddressed (sha256 codec : String)
  | inlineFile (data : String)
  | inlinePcm (data : String) (sampleRate : Nat)
deriving Repr, DecidableEq

structure SampleZone where
  audio : AudioReference
deriving Repr, DecidableEq

structure SamplerConfig where
  zones : List SampleZone
deriving Repr, DecidableEq

/-- The `node` field of a preset descriptor: only `type` and `config` are
contractually inspected by the loader. -/
structure PresetNode where
  type : String
  config : Option SamplerConfig
deriving Repr, DecidableEq

structure PresetDescriptor where
  node : Option PresetNode
deriving Repr, DecidableEq

/-- A decoded PCM buffer (`AudioBuffer`); float samples are represented by
their 32-bit little-endian bit patterns. -/
structure AudioBuffer where
  numberOfChannels : Nat
  length : Nat
  sampleRate : Nat
  samples : List Nat
deriving Repr, DecidableEq

/-- The error cases thrown by `preset-loader.ts`. -/
inductive Err where
  | fetchFailed (url : String)
  | libraryNotFound (name : String)
  | presetNotFound (name : String)
  | invalidReference
  | noAudioContext
  | invalidBase64
  | rangeError
  | decodeFailed
deriving Repr, DecidableEq

structure LoadedLibrary where
  index : PresetIndex
  baseUrl : String
deriving Repr, DecidableEq

/-- The mutable fields of a `PresetLoader` instance. -/
structure LoaderState where
  baseUrl : String
  rootIndex : Option PresetIndex
  loadedLibraries : List (String × LoadedLibrary)
  enabledLibraries : List String
  presetCache : LRUCache String PresetDescriptor
  audioCache : LRUCache String AudioBuffer
  audioContextSet : Bool
deriving Repr, DecidableEq

/-- The external collaborators: network fetch (JSON parsed per resource
kind) and the WebAudio `decodeAudioData` capability. -/
structure Env where
  fetchIndex : String → Except Err PresetIndex
  fetchPreset : String → Except Err PresetDescriptor
  fetchBytes : String → Except Err (List Nat)
  decodeAudioData : List Nat → Except Err AudioBuffer

/-- JS `Map.prototype.set`: update in place if present, else append. -/
def mapSet {α : Type} (k : String) (v : α) :
    List (String × α) → List (String × α)
  | [] => [(k, v)]
  | p :: rest => if p.1 = k then (k, v) :: rest else p :: mapSet k v rest

/-- JS `Set.prototype.add`: append if absent. -/
def setAdd (k : String) (s : List String) : List String :=
  if k ∈ s then s else s ++ [k]

/-- `baseUrl.replace(/\/$/, '')`: drop one trailing slash. -/
def trimTrailingSlash (s : String) : String :=
  match s.data.reverse with
  | c :: rest => if c = '/' then ⟨rest.reverse⟩ else s
  | [] => s

/-- `new PresetLoader(baseUrl, options)`; cache capacities default to 128
(presets) and 256 (audio) at the call site. -/
def mkLoader (baseUrl : String) (presetCacheSize audioCacheSize : Nat) :
    LoaderState :=
  { baseUrl := trimTrailingSlash baseUrl
    rootIndex := none
    loadedLibraries := []
    enabledLibraries := []
    presetCache := LRUCache.empty _ _ presetCacheSize
    audioCache := LRUCache.empty _ _ audioCacheSize
    audioContextSet := false }

/-- `loadRootIndex()` (lines 160–170): memoized fetch of
`{baseUrl}/index.json`.  Returns result, updated state, and fetch trace. -/
def loadRootIndex (env : Env) (st : LoaderState) :
    Except Err PresetIndex × LoaderState × List String :=
  match st.rootIndex with
  | some idx => (.ok idx, st, [])
  | none =>
    let url := st.baseUrl ++ "/index.json"
    match env.fetchIndex url with
    | .error e => (.error e, st, [url])
    | .ok idx => (.ok idx, { st with rootIndex := some idx }, [url])

/-- **C7**: on an instance whose root index is not yet loaded, a successful
`loadRootIndex` fetches `{baseUrl}/index.json` exactly once; a second call
returns the identical memoized index, leaves the state unchanged, and
performs no further fetch. -/
theorem loadRootIndex_memoized (env : Env) (st : LoaderState)
    (idx : PresetIndex) (st' : LoaderState) (tr : List String)
    (hfresh : st.rootIndex = none)
    (h : loadRootIndex env st = (.ok idx, st', tr)) :
    tr = [st.baseUrl ++ "/index.json"] ∧
    loadRootIndex env st' = (.ok idx, st', []) := by
  have hcall : loadRootIndex env st =
      match env.fetchIndex (st.baseUrl ++ "/index.json") with
      | .error e => (.error e, st, [st.baseUrl ++ "/index.json"])
      | .ok i =>
        (.ok i, { st with rootIndex := some i }, [st.baseUrl ++ "/index.json"]) := by
    unfold loadRootIndex
    rw [hfresh]
  rw [hcall] at h
  rcases hf : env.fetchIndex (st.baseUrl ++ "/index.json") with e | i
  · rw [hf] at h
    cases h
  · rw [hf] at h
    obtain ⟨h1, h2, h3⟩ : Except.ok i = Except.ok (ε := Err) idx ∧
        ({ st with rootIndex := some i } : LoaderState) = st' ∧
        [st.baseUrl ++ "/index.json"] = tr := by
      simpa [Prod.ext_iff] using h
    have hi : i = idx := by
      cases h1
      rfl
    subst hi
    refine ⟨h3.symm, ?_⟩
    unfold loadRootIndex
    rw [← h2]

theorem loadRootIndex_memoized_witness :
    ([("https://x" ++ "/index.json" : String)] =
      [("https://x" : String) ++ "/index.json"]) ∧
    loadRootIndex
      ⟨fun _ => .ok ⟨"root", []⟩, fun _ => .error .invalidReference,
       fun _ => .error .invalidReference, fun _ => .error .decodeFailed⟩
      { mkLoader "https://x" 128 256 with rootIndex := some ⟨"root", []⟩ } =
      (.ok ⟨"root", []⟩,
       { mkLoader "https://x" 128 256 with rootIndex := some ⟨"root", []⟩ },
       []) :=
  loadRootIndex_memoized
    ⟨fun _ => .ok ⟨"root", []⟩, fun _ => .error .invalidReference,
     fun _ => .error .invalidReference, fun _ => .error .decodeFailed⟩
    (mkLoader "https://x" 128 256) ⟨"root", []⟩
    { mkLoader "https://x" 128 256 with rootIndex := some ⟨"root", []⟩ }
    ["https://x/index.json"] rfl rfl

def isIndexEntry : IndexEntry → Bool
  | .index _ => true
  | .preset _ => false

/-- Register a loaded library under one lookup key (`loadedLibraries.set`). -/
def registerLib (key : String) (loaded : LoadedLibrary) (st : LoaderState) :
    LoaderState :=
  { st with loadedLibraries := mapSet key loaded st.loadedLibraries }

/-- Store under the requested name, and also under the entry's canonical
name when the two differ (lines 275–279). -/
def registerBoth (requested canonical : String) (loaded : LoadedLibrary)
    (st : LoaderState) : LoaderState :=
  if canonical ≠ requested then
    registerLib canonical loaded (registerLib requested loaded st)
  else
    registerLib requested loaded st

/-- `loadLibrary(name)` (lines 224–281): memoized per name; flat-index
special case; three-tier resolution; on success the loaded library is
registered under both the requested and the canonical entry name. -/
def loadLibrary (env : Env) (name : String) (st : LoaderState) :
    Except Err LoadedLibrary × LoaderState × List String :=
  match findVal name st.loadedLibraries with
  | some lib => (.ok lib, st, [])
  | none =>
    match loadRootIndex env st with
    | (.error e, st1, tr) => (.error e, st1, tr)
    | (.ok root, st1, tr) =>
      if (!root.entries.any isIndexEntry) && (root.name == name) then
        (.ok ⟨root, st1.baseUrl⟩, registerLib name ⟨root, st1.baseUrl⟩ st1, tr)
      else
        match findLibEntry name root.entries with
        | none => (.error (.libraryNotFound name), st1, tr)
        | some libEntry =>
          match env.fetchIndex (st1.baseUrl ++ "/" ++ libEntry.path) with
          | .error e =>
            (.error e, st1, tr ++ [st1.baseUrl ++ "/" ++ libEntry.path])
          | .ok index =>
            (.ok ⟨index, dirOf (st1.baseUrl ++ "/" ++ libEntry.path)⟩,
             registerBoth name libEntry.name
               ⟨index, dirOf (st1.baseUrl ++ "/" ++ libEntry.path)⟩ st1,
             tr ++ [st1.baseUrl ++ "/" ++ libEntry.path])

/-- `enableLibrary(name)` (lines 284–287): load (if needed) then add to the
enabled set. -/
def enableLibrary (env : Env) (name : String) (st : LoaderState) :
    Except Err Unit × LoaderState × List String :=
  match loadLibrary env name st with
  | (.error e, st1, tr) => (.error e, st1, tr)
  | (.ok _, st1, tr) =>
    (.ok (), { st1 with enabledLibraries := setAdd name st1.enabledLibraries },
     tr)

/-- `disableLibrary(name)`: only removes from the enabled set. -/
def disableLibrary (name : String) (st : LoaderState) : LoaderState :=
  { st with enabledLibraries := st.enabledLibraries.filter (fun m => m ≠ name) }

-- ── Search (`_getEnabledPresets`, `search`, lines 302–345) ──

/-- The preset-type entries of a loaded library's index, in document order. -/
def presetEntriesOf (lib : LoadedLibrary) : List PresetEntry :=
  lib.index.entries.filterMap (fun e => match e with
    | .preset p => some p
    | .index _ => none)

/-- `_getEnabledPresets()`: for each enabled library name in insertion
order, the preset entries of its loaded index tagged with that name;
silently skips an enabled name with no loaded entry. -/
def getEnabledPresets (st : LoaderState) : List (String × PresetEntry) :=
  (st.enabledLibraries.map (fun ln =>
    match findVal ln st.loadedLibraries with
    | none => []
    | some lib => (presetEntriesOf lib).map (fun p => (ln, p)))).flatten

structure SearchOptions where
  library : Option String := none
  category : Option String := none
  gmProgram : Option Nat := none
  tags : Option (List String) := none
  name : Option String := none
deriving Repr, DecidableEq

/-- `if (options.library) { ... }`: JS truthiness skips both `undefined`
and the empty string. -/
def libraryStage (o : Option String) (rs : List (String × PresetEntry)) :
    List (String × PresetEntry) :=
  match o with
  | none => rs
  | some lib =>
    if lib.data.isEmpty then rs
    else rs.filter (fun r => jsLower r.1 == jsLower lib)

def categoryStage (o : Option String) (rs : List (String × PresetEntry)) :
    List (String × PresetEntry) :=
  match o with
  | none => rs
  | some cat =>
    if cat.data.isEmpty then rs
    else rs.filter (fun r => r.2.category == cat)

/-- `options.gmProgram !== undefined` — `0` is a valid filter value. -/
def gmProgramStage (o : Option Nat) (rs : List (String × PresetEntry)) :
    List (String × PresetEntry) :=
  match o with
  | none => rs
  | some g => rs.filter (fun r => r.2.gmProgram == some g)

/-- `options.tags && options.tags.length > 0`: entry matches if it has at
least one tag in the query set, case-insensitively. -/
def tagsStage (o : Option (List String)) (rs : List (String × PresetEntry)) :
    List (String × PresetEntry) :=
  match o with
  | none => rs
  | some qtags =>
    if qtags.isEmpty then rs
    else rs.filter (fun r =>
      r.2.tags.any (fun t => (qtags.map jsLower).contains (jsLower t)))

def nameStage (o : Option String) (rs : List (String × PresetEntry)) :
    List (String × PresetEntry) :=
  match o with
  | none => rs
  | some nm =>
    if nm.data.isEmpty then rs
    else rs.filter (fun r => strIncludes (jsLower r.2.name) (jsLower nm))

/-- `search(options)` (lines 317–345): sequential conjunctive filters over
the enabled presets, then project the entries. -/
def search (opts : SearchOptions) (st : LoaderState) : List PresetEntry :=
  (nameStage opts.name
    (tagsStage opts.tags
      (gmProgramStage opts.gmProgram
        (categoryStage opts.category
          (libraryStage opts.library (getEnabledPresets st)))))).map
    (fun r => r.2)

/-- The spec's reading of the conjunctive filter semantics of `search`. -/
def specSearchMatches (opts : SearchOptions) (libraryName : String)
    (e : PresetEntry) : Prop :=
  (∀ lib, opts.library = some lib → jsLower libraryName = jsLower lib) ∧
  (∀ cat, opts.category = some cat → e.category = cat) ∧
  (∀ g, opts.gmProgram = some g → e.gmProgram = some g) ∧
  (∀ qtags, opts.tags = some qtags → qtags ≠ [] →
    ∃ t ∈ e.tags, jsLower t ∈ qtags.map jsLower) ∧
  (∀ nm, opts.name = some nm → strIncludes (jsLower e.name) (jsLower nm) = true)

theorem string_data_isEmpty_false (s : String) (hs : s ≠ "") :
    s.data.isEmpty = false := by
  cases s with
  | mk d =>
    cases d with
    | nil => exact absurd rfl hs
    | cons c cs => rfl

theorem mem_libraryStage (o : Option String) (rs : List (String × PresetEntry))
    (r : String × PresetEntry) (ho : o ≠ some "") :
    r ∈ libraryStage o rs ↔
      r ∈ rs ∧ ∀ lib, o = some lib → jsLower r.1 = jsLower lib := by
  rcases o with _ | lib
  · simp [libraryStage]
  · have hne : lib.data.isEmpty = false :=
      string_data_isEmpty_false lib (fun h => ho (by rw [h]))
    simp only [libraryStage, hne, Bool.false_eq_true, if_false, List.mem_filter]
    constructor
    · intro ⟨hm, hb⟩
      exact ⟨hm, fun l hl => by
        cases hl
        exact beq_iff_eq.mp hb⟩
    · intro ⟨hm, hb⟩
      exact ⟨hm, beq_iff_eq.mpr (hb lib rfl)⟩

theorem mem_categoryStage (o : Option String) (rs : List (String × PresetEntry))
    (r : String × PresetEntry) (ho : o ≠ some "") :
    r ∈ categoryStage o rs ↔
      r ∈ rs ∧ ∀ cat, o = some cat → r.2.category = cat := by
  rcases o with _ | cat
  · simp [categoryStage]
  · have hne : cat.data.isEmpty = false :=
      string_data_isEmpty_false cat (fun h => ho (by rw [h]))
    simp only [categoryStage, hne, Bool.false_eq_true, if_false, List.mem_filter]
    constructor
    · intro ⟨hm, hb⟩
      exact ⟨hm, fun l hl => by
        cases hl
        exact beq_iff_eq.mp hb⟩
    · intro ⟨hm, hb⟩
      exact ⟨hm, beq_iff_eq.mpr (hb cat rfl)⟩

theorem mem_gmProgramStage (o : Option Nat) (rs : List (String × PresetEntry))
    (r : String × PresetEntry) :
    r ∈ gmProgramStage o rs ↔
      r ∈ rs ∧ ∀ g, o = some g → r.2.gmProgram = some g := by
  rcases o with _ | g
  · simp [gmProgramStage]
  · simp only [gmProgramStage, List.mem_filter]
    constructor
    · intro ⟨hm, hb⟩
      exact ⟨hm, fun l hl => by
        cases hl
        exact beq_iff_eq.mp hb⟩
    · intro ⟨hm, hb⟩
      exact ⟨hm, beq_iff_eq.mpr (hb g rfl)⟩

theorem mem_tagsStage (o : Option (List String))
    (rs : List (String × PresetEntry)) (r : String × PresetEntry) :
    r ∈ tagsStage o rs ↔
      r ∈ rs ∧ ∀ qtags, o = some qtags → qtags ≠ [] →
        ∃ t ∈ r.2.tags, jsLower t ∈ qtags.map jsLower := by
  rcases o with _ | qtags
  · simp [tagsStage]
  · rcases qtags with _ | ⟨q, qs⟩
    · simp [tagsStage, List.isEmpty]
    · simp only [tagsStage, List.isEmpty, Bool.false_eq_true, if_false,
        List.mem_filter]
      constructor
      · intro ⟨hm, hb⟩
        refine ⟨hm, fun l hl _ => ?_⟩
        cases hl
        obtain ⟨t, ht, hc⟩ := List.any_eq_true.mp hb
        exact ⟨t, ht, List.elem_iff.mp hc⟩
      · intro ⟨hm, hb⟩
        obtain ⟨t, ht, hc⟩ := hb (q :: qs) rfl (by simp)
        exact ⟨hm, List.any_eq_true.mpr ⟨t, ht, List.elem_iff.mpr hc⟩⟩

theorem mem_nameStage (o : Option String) (rs : List (String × PresetEntry))
    (r : String × PresetEntry) (ho : o ≠ some "") :
    r ∈ nameStage o rs ↔
      r ∈ rs ∧ ∀ nm, o = some nm →
        strIncludes (jsLower r.2.name) (jsLower nm) = true := by
  rcases o with _ | nm
  · simp [nameStage]
  · have hne : nm.data.isEmpty = false :=
      string_data_isEmpty_false nm (fun h => ho (by rw [h]))
    simp only [nameStage, hne, Bool.false_eq_true, if_false, List.mem_filter]
    constructor
    · intro ⟨hm, hb⟩
      exact ⟨hm, fun l hl => by
        cases hl
        exact hb⟩
    · intro ⟨hm, hb⟩
      exact ⟨hm, hb nm rfl⟩

theorem mem_getEnabledPresets (st : LoaderState) (r : String × PresetEntry) :
    r ∈ getEnabledPresets st ↔
      ∃ lib, r.1 ∈ st.enabledLibraries ∧
        findVal r.1 st.loadedLibraries = some lib ∧
        IndexEntry.preset r.2 ∈ lib.index.entries := by
  unfold getEnabledPresets
  rw [List.mem_flatten]
  constructor
  · intro ⟨l, hl, hr⟩
    obtain ⟨ln, hln, hmap⟩ := List.mem_map.mp hl
    rw [← hmap] at hr
    rcases hfd : findVal ln st.loadedLibraries with _ | lib
    · rw [hfd] at hr
      cases hr
    · rw [hfd] at hr
      obtain ⟨p, hp, hpr⟩ := List.mem_map.mp hr
      obtain ⟨e, he, hep⟩ := List.mem_filterMap.mp hp
      cases e with
      | preset p' =>
        have hpp : p' = p := by simpa using hep
        subst hpp
        subst hpr
        exact ⟨lib, hln, hfd, he⟩
      | index s => simp at hep
  · intro ⟨lib, hln, hfd, he⟩
    refine ⟨(presetEntriesOf lib).map (fun p => (r.1, p)), ?_, ?_⟩
    · apply List.mem_map.mpr
      exact ⟨r.1, hln, by rw [hfd]⟩
    · apply List.mem_map.mpr
      refine ⟨r.2, ?_, rfl⟩
      apply List.mem_filterMap.mpr
      exact ⟨IndexEntry.preset r.2, he, rfl⟩

/-- **C5**: `search` returns exactly the preset entries of currently
enabled libraries satisfying every supplied filter conjunctively (library:
case-insensitive equality; category: equality; gmProgram: equality; tags:
at least one case-insensitive common tag; name: case-insensitive
substring); with an empty enabled set the result is the empty list, not an
error.  (A string filter supplied as `""` is falsy in JS and acts as an
absent filter, hence the three non-emptiness hypotheses.) -/
theorem search_exactly_filters_enabled (opts : SearchOptions)
    (st : LoaderState)
    (hlib : opts.library ≠ some "") (hcat : opts.category ≠ some "")
    (hnm : opts.name ≠ some "") :
    (∀ e : PresetEntry, e ∈ search opts st ↔
      ∃ ln lib, ln ∈ st.enabledLibraries ∧
        findVal ln st.loadedLibraries = some lib ∧
        IndexEntry.preset e ∈ lib.index.entries ∧
        specSearchMatches opts ln e) ∧
    (st.enabledLibraries = [] → search opts st = []) := by
  constructor
  · intro e
    unfold search
    rw [List.mem_map]
    constructor
    · intro ⟨r, hr, hre⟩
      rw [mem_nameStage _ _ _ hnm] at hr
      obtain ⟨hr, h5⟩ := hr
      rw [mem_tagsStage] at hr
      obtain ⟨hr, h4⟩ := hr
      rw [mem_gmProgramStage] at hr
      obtain ⟨hr, h3⟩ := hr
      rw [mem_categoryStage _ _ _ hcat] at hr
      obtain ⟨hr, h2⟩ := hr
      rw [mem_libraryStage _ _ _ hlib] at hr
      obtain ⟨hr, h1⟩ := hr
      rw [mem_getEnabledPresets] at hr
      obtain ⟨lib, hln, hfd, he⟩ := hr
      subst hre
      exact ⟨r.1, lib, hln, hfd, he, h1, h2, h3, h4, h5⟩
    · intro ⟨ln, lib, hln, hfd, he, h1, h2, h3, h4, h5⟩
      refine ⟨(ln, e), ?_, rfl⟩
      rw [mem_nameStage _ _ _ hnm]
      refine ⟨?_, h5⟩
      rw [mem_tagsStage]
      refine ⟨?_, h4⟩
      rw [mem_gmProgramStage]
      refine ⟨?_, h3⟩
      rw [mem_categoryStage _ _ _ hcat]
      refine ⟨?_, h2⟩
      rw [mem_libraryStage _ _ _ hlib]
      refine ⟨?_, h1⟩
      rw [mem_getEnabledPresets]
      exact ⟨lib, hln, hfd, he⟩
  · intro h
    have hge : getEnabledPresets st = [] := by
      unfold getEnabledPresets
      rw [h]
      rfl
    unfold search
    rw [hge]
    rcases opts with ⟨l, c, g, t, n⟩
    simp only
    rcases l with _ | l <;> rcases c with _ | c <;> rcases g with _ | g <;>
        rcases t with _ | t <;> rcases n with _ | n <;>
      simp [libraryStage, categoryStage, gmProgramStage, tagsStage, nameStage,
        List.filter_nil]

/-- A one-library state used to instantiate the search theorems. -/
def searchDemoState : LoaderState :=
  { baseUrl := "b", rootIndex := none,
    loadedLibraries :=
      [("L", ⟨⟨"L", [.preset ⟨"pno", "p.json", "sampler", ["Piano"], none⟩]⟩,
        "b/L"⟩)],
    enabledLibraries := ["L"],
    presetCache := LRUCache.empty _ _ 128,
    audioCache := LRUCache.empty _ _ 256,
    audioContextSet := false }

theorem search_exactly_filters_enabled_witness :
    (⟨"pno", "p.json", "sampler", ["Piano"], none⟩ : PresetEntry) ∈
      search ⟨none, none, none, some ["PIANO"], none⟩ searchDemoState :=
  ((search_exactly_filters_enabled ⟨none, none, none, some ["PIANO"], none⟩
      searchDemoState (by simp) (by simp) (by simp)).1
    ⟨"pno", "p.json", "sampler", ["Piano"], none⟩).mpr
    ⟨"L", ⟨⟨"L", [.preset ⟨"pno", "p.json", "sampler", ["Piano"], none⟩]⟩,
      "b/L"⟩, (by simp [searchDemoState]), (by simp [searchDemoState, findVal]),
      (by simp), fun _ h => (by cases h), fun _ h => (by cases h),
      fun _ h => (by cases h),
      fun qtags h _ => (by cases h; exact ⟨"Piano", by simp, by decide⟩),
      fun _ h => (by cases h)⟩


-- ── Fuzzy search (`fuzzySearch`, lines 348–377) ──

/-- JS regex `\s` whitespace (common subset). -/
def isWs (c : Char) : Bool := c = ' ' || c = '\t' || c = '\n' || c = '\r'

/-- One right-to-left step of `query.split(/\s+/)`: the Bool records
whether the adjacent already-processed character was whitespace, so a
maximal run produces a single boundary. -/
def splitWsStep (c : Char) : Bool × List (List Char) → Bool × List (List Char)
  | (rightWs, ws) =>
    if isWs c then
      if rightWs then (true, ws) else (true, [] :: ws)
    else
      match ws with
      | [] => (false, [[c]])
      | w :: rest => (false, (c :: w) :: rest)

/-- `query.split(/\s+/)`: split on maximal whitespace runs; a leading or
trailing run contributes an empty segment, as in JS. -/
def jsSplitWs (s : String) : List String :=
  ((s.data.foldr splitWsStep (false, [[]])).2).map (fun w => ⟨w⟩)

/-- The number of whitespace-split query words found in the entry name or
any tag (`matchCount`, lines 362–365). -/
def matchedWords (needle : String) (e : PresetEntry) : Nat :=
  ((jsSplitWs needle).filter (fun w =>
    strIncludes (jsLower e.name) w ||
    e.tags.any (fun t => strIncludes (jsLower t) w))).length

/-- The relevance score of `fuzzySearch` (lines 353–367), stored multiplied
by the constant `(jsSplitWs needle).length` (the query's `total_words`).
For a fixed query this rescaling preserves score order, equality, and
zero-ness exactly, while keeping the value a natural number (the source
computes the float `matchCount / words.length * 30`; every other branch is
an integer).  `fuzzyScore_spec` below relates it to the spec's table. -/
def fuzzyScore (needle : String) (e : PresetEntry) : Nat :=
  if jsLower e.name = needle then 100 * (jsSplitWs needle).length
  else if strStarts (jsLower e.name) needle then 80 * (jsSplitWs needle).length
  else if strIncludes (jsLower e.name) needle then 60 * (jsSplitWs needle).length
  else if e.tags.any (fun t => strIncludes (jsLower t) needle) then
    40 * (jsSplitWs needle).length
  else matchedWords needle e * 30

/-- The spec's scoring table in ℚ, written from the spec text
(`30 * (matched_words / total_words)` in the fallback case). -/
def specFuzzyScore (needle : String) (e : PresetEntry) : ℚ :=
  if jsLower e.name = needle then 100
  else if strStarts (jsLower e.name) needle then 80
  else if strIncludes (jsLower e.name) needle then 60
  else if e.tags.any (fun t => strIncludes (jsLower t) needle) then 40
  else 30 * ((matchedWords needle e : ℚ) / ((jsSplitWs needle).length : ℚ))

/-- Insert into a descending-sorted scored list, before the first element of
score `≤` the inserted one: together with `sortByScoreDesc` this computes
the unique stable descending sort, i.e. the JS stable
`sort((a, b) => b.score - a.score)`. -/
def insertDesc {α : Type} (x : α × Nat) : List (α × Nat) → List (α × Nat)
  | [] => [x]
  | y :: rest => if y.2 ≤ x.2 then x :: y :: rest else y :: insertDesc x rest

def sortByScoreDesc {α : Type} : List (α × Nat) → List (α × Nat)
  | [] => []
  | x :: rest => insertDesc x (sortByScoreDesc rest)

/-- The scored, positive-filtered, sorted candidate list of `fuzzySearch`. -/
def fuzzyRank (query : String) (st : LoaderState) : List (PresetEntry × Nat) :=
  sortByScoreDesc
    (((getEnabledPresets st).map (fun r =>
        (r.2, fuzzyScore (jsLower query) r.2))).filter
      (fun s => decide (0 < s.2)))

/-- `fuzzySearch(query, limit = 20)` (lines 348–377). -/
def fuzzySearch (query : String) (limit : Nat) (st : LoaderState) :
    List PresetEntry :=
  ((fuzzyRank query st).take limit).map (fun s => s.1)

theorem splitWsStep_snd_ne_nil (c : Char) (p : Bool × List (List Char))
    (h : p.2 ≠ []) : (splitWsStep c p).2 ≠ [] := by
  rcases p with ⟨b, ws⟩
  unfold splitWsStep
  by_cases hc : isWs c
  · by_cases hb : b
    · simpa [hc, hb] using h
    · simp [hc, hb]
  · rcases ws with _ | ⟨w, rest⟩
    · exact absurd rfl h
    · simp [hc]

theorem jsSplitWs_length_pos (s : String) : 0 < (jsSplitWs s).length := by
  unfold jsSplitWs
  rw [List.length_map]
  have h : (s.data.foldr splitWsStep (false, [[]])).2 ≠ [] := by
    induction s.data with
    | nil => simp
    | cons c rest ih => exact splitWsStep_snd_ne_nil c _ ih
  exact List.length_pos.mpr h

/-- The rescaled natural score agrees with the spec's rational score table
up to the constant positive factor `total_words`. -/
theorem fuzzyScore_spec (needle : String) (e : PresetEntry) :
    (fuzzyScore needle e : ℚ) =
      specFuzzyScore needle e * ((jsSplitWs needle).length : ℚ) := by
  have ht : ((jsSplitWs needle).length : ℚ) ≠ 0 := by
    have h := jsSplitWs_length_pos needle
    exact_mod_cast (by omega : (jsSplitWs needle).length ≠ 0)
  unfold fuzzyScore specFuzzyScore
  split_ifs with h1 h2 h3 h4
  · push_cast
    ring
  · push_cast
    ring
  · push_cast
    ring
  · push_cast
    ring
  · push_cast
    field_simp
    ring

theorem mem_insertDesc {α : Type} (x z : α × Nat) (l : List (α × Nat)) :
    z ∈ insertDesc x l ↔ z = x ∨ z ∈ l := by
  induction l with
  | nil => simp [insertDesc]
  | cons y rest ih =>
    by_cases h : y.2 ≤ x.2
    · simp [insertDesc, h]
    · simp only [insertDesc, h, if_false, List.mem_cons, ih]
      constructor
      · intro hz
        rcases hz with hz | hz | hz
        · exact Or.inr (Or.inl hz)
        · exact Or.inl hz
        · exact Or.inr (Or.inr hz)
      · intro hz
        rcases hz with hz | hz | hz
        · exact Or.inr (Or.inl hz)
        · exact Or.inl hz
        · exact Or.inr (Or.inr hz)

theorem insertDesc_perm {α : Type} (x : α × Nat) (l : List (α × Nat)) :
    (insertDesc x l).Perm (x :: l) := by
  induction l with
  | nil => simp [insertDesc]
  | cons y rest ih =>
    by_cases h : y.2 ≤ x.2
    · simp [insertDesc, h]
    · simp only [insertDesc, h, if_false]
      exact ((List.perm_cons y).mpr ih).trans (List.Perm.swap x y rest)

theorem sortByScoreDesc_perm {α : Type} (l : List (α × Nat)) :
    (sortByScoreDesc l).Perm l := by
  induction l with
  | nil => exact List.Perm.refl _
  | cons x rest ih =>
    exact (insertDesc_perm x (sortByScoreDesc rest)).trans
      ((List.perm_cons x).mpr ih)

theorem sorted_insertDesc {α : Type} (x : α × Nat) (l : List (α × Nat))
    (h : l.Pairwise (fun a b => b.2 ≤ a.2)) :
    (insertDesc x l).Pairwise (fun a b => b.2 ≤ a.2) := by
  induction l with
  | nil => simp [insertDesc]
  | cons y rest ih =>
    rw [List.pairwise_cons] at h
    by_cases hc : y.2 ≤ x.2
    · simp only [insertDesc, hc, if_true]
      refine List.Pairwise.cons ?_ (List.Pairwise.cons h.1 h.2)
      intro z hz
      rcases List.mem_cons.mp hz with hz | hz
      · rw [hz]
        exact hc
      · exact le_trans (h.1 z hz) hc
    · simp only [insertDesc, hc, if_false]
      refine List.Pairwise.cons ?_ (ih h.2)
      intro z hz
      rcases (mem_insertDesc x z rest).mp hz with hz | hz
      · rw [hz]
        omega
      · exact h.1 z hz

theorem sorted_sortByScoreDesc {α : Type} (l : List (α × Nat)) :
    (sortByScoreDesc l).Pairwise (fun a b => b.2 ≤ a.2) := by
  induction l with
  | nil => exact List.Pairwise.nil
  | cons x rest ih => exact sorted_insertDesc x _ ih

/-- A three-entry library exercising the spec's ranking example. -/
def fuzzyDemoState : LoaderState :=
  { baseUrl := "b", rootIndex := none,
    loadedLibraries :=
      [("L", ⟨⟨"L",
        [.preset ⟨"Acoustic Grand Piano", "a.json", "sampler", [], none⟩,
         .preset ⟨"Warm Pad", "w.json", "synth", ["piano"], none⟩,
         .preset ⟨"Grand Piano", "g.json", "sampler", [], none⟩]⟩, "b/L"⟩)],
    enabledLibraries := ["L"],
    presetCache := LRUCache.empty _ _ 128,
    audioCache := LRUCache.empty _ _ 256,
    audioContextSet := false }

/-- **C6**: `fuzzySearch` scores deterministically per the spec's table
(exact = 100, starts-with = 80, contains = 60, tag contains = 40, else
`30 * matched_words / total_words`), excludes zero scores, and returns the
top `limit` entries in descending score order; on the spec's example the
exact match `"Grand Piano"` (100) ranks above `"Acoustic Grand Piano"`
(contains, 60) above the entry merely tagged `"piano"` (word score 15). -/
theorem fuzzySearch_ranks_by_score :
    (∀ (needle : String) (e : PresetEntry),
      (fuzzyScore needle e : ℚ) =
        specFuzzyScore needle e * ((jsSplitWs needle).length : ℚ)) ∧
    (∀ (q : String) (st : LoaderState),
      (fuzzyRank q st).Pairwise (fun a b => b.2 ≤ a.2)) ∧
    (∀ (q : String) (st : LoaderState),
      (fuzzyRank q st).Perm
        (((getEnabledPresets st).map (fun r =>
            (r.2, fuzzyScore (jsLower q) r.2))).filter
          (fun s => decide (0 < s.2)))) ∧
    (∀ (p : PresetEntry × Nat) (q : String) (st : LoaderState),
      p ∈ fuzzyRank q st →
        0 < p.2 ∧ p.2 = fuzzyScore (jsLower q) p.1 ∧
        ∃ ln, (ln, p.1) ∈ getEnabledPresets st) ∧
    (∀ (q : String) (limit : Nat) (st : LoaderState),
      (fuzzySearch q limit st).length ≤ limit) ∧
    specFuzzyScore (jsLower "grand piano")
      ⟨"Grand Piano", "g.json", "sampler", [], none⟩ = 100 ∧
    specFuzzyScore (jsLower "grand piano")
      ⟨"Acoustic Grand Piano", "a.json", "sampler", [], none⟩ = 60 ∧
    specFuzzyScore (jsLower "grand piano")
      ⟨"Warm Pad", "w.json", "synth", ["piano"], none⟩ = 15 ∧
    fuzzySearch "grand piano" 20 fuzzyDemoState =
      [⟨"Grand Piano", "g.json", "sampler", [], none⟩,
       ⟨"Acoustic Grand Piano", "a.json", "sampler", [], none⟩,
       ⟨"Warm Pad", "w.json", "synth", ["piano"], none⟩] := by
  refine ⟨fuzzyScore_spec, ?_, ?_, ?_, ?_, ?_, ?_, ?_, by decide⟩
  · intro q st
    exact sorted_sortByScoreDesc _
  · intro q st
    exact sortByScoreDesc_perm _
  · intro p q st hp
    have hmem := (sortByScoreDesc_perm _).mem_iff.mp hp
    rw [List.mem_filter] at hmem
    obtain ⟨hmap, hpos⟩ := hmem
    obtain ⟨r, hr, hrp⟩ := List.mem_map.mp hmap
    refine ⟨by simpa using hpos, ?_, ?_⟩
    · rw [← hrp]
    · exact ⟨r.1, by
        rw [← hrp]
        simpa using hr⟩
  · intro q limit st
    unfold fuzzySearch
    rw [List.length_map, List.length_take]
    exact min_le_left _ _
  · unfold specFuzzyScore
    rw [if_pos (by decide)]
  · unfold specFuzzyScore
    rw [if_neg (by decide), if_neg (by decide), if_pos (by decide)]
  · unfold specFuzzyScore
    rw [if_neg (by decide), if_neg (by decide), if_neg (by decide),
      if_neg (by decide)]
    rw [show matchedWords (jsLower "grand piano")
        ⟨"Warm Pad", "w.json", "synth", ["piano"], none⟩ = 1 from by decide]
    rw [show (jsSplitWs (jsLower "grand piano")).length = 2 from by decide]
    norm_num

theorem fuzzySearch_ranks_by_score_witness :
    0 < 200 ∧ 200 = fuzzyScore (jsLower "grand piano")
      (⟨"Grand Piano", "g.json", "sampler", [], none⟩ : PresetEntry) ∧
    ∃ ln, (ln, (⟨"Grand Piano", "g.json", "sampler", [], none⟩ : PresetEntry)) ∈
      getEnabledPresets fuzzyDemoState :=
  fuzzySearch_ranks_by_score.2.2.2.1
    (⟨"Grand Piano", "g.json", "sampler", [], none⟩, 200) "grand piano"
    fuzzyDemoState (by decide)


-- ── Alias registration and double enumeration (C10) ──

theorem findVal_mapSet_self {α : Type} (k : String) (v : α)
    (m : List (String × α)) : findVal k (mapSet k v m) = some v := by
  induction m with
  | nil => simp [mapSet, findVal]
  | cons p rest ih =>
    by_cases h : p.1 = k
    · simp [mapSet, h, findVal]
    · simp [mapSet, h, findVal, ih]

theorem findVal_mapSet_other {α : Type} (k k' : String) (v : α)
    (m : List (String × α)) (h : k ≠ k') :
    findVal k (mapSet k' v m) = findVal k m := by
  have hk : ¬ k' = k := fun e => h e.symm
  induction m with
  | nil => simp [mapSet, findVal, hk]
  | cons p rest ih =>
    by_cases hp : p.1 = k'
    · have hpk : ¬ p.1 = k := by
        rw [hp]
        exact hk
      simp [mapSet, hp, findVal, hk, hpk]
    · simp only [mapSet, hp, if_false, findVal]
      by_cases hk2 : p.1 = k
      · simp [hk2]
      · simp [hk2, ih]

theorem mem_setAdd_self (k : String) (s : List String) : k ∈ setAdd k s := by
  unfold setAdd
  by_cases h : k ∈ s
  · simp [h]
  · simp [h]

/-- Fetch environment for the alias scenario: a root index whose only
sub-index is canonically named `"FluidR3 GM"` but lives at
`"FluidR3_GM/index.json"`. -/
def aliasDemoEnv : Env :=
  ⟨fun url =>
    if url = "b/index.json" then
      .ok ⟨"root", [.index ⟨"FluidR3 GM", "FluidR3_GM/index.json"⟩]⟩
    else if url = "b/FluidR3_GM/index.json" then
      .ok ⟨"FluidR3 GM", [.preset ⟨"pno", "p.json", "sampler", [], none⟩]⟩
    else .error (.fetchFailed url),
   fun u => .error (.fetchFailed u),
   fun u => .error (.fetchFailed u),
   fun _ => .error .decodeFailed⟩

/-- **C10**: `loadLibrary` registers one shared `LoadedLibrary` under both
the requested alias and the canonical entry name; `enableLibrary` adds the
requested name to the enabled set; and when both names of the same library
are enabled, `search`/`fuzzySearch` enumerate its preset entries once per
enabled name, so each entry appears twice (exactly, for an unfiltered
`search`; `fuzzySearch`'s ranked candidate list is a permutation of two
copies of the library's positively-scored entries). -/
theorem alias_double_enumeration :
    (∀ (requested canonical : String) (loaded : LoadedLibrary)
        (st : LoaderState), canonical ≠ requested →
      findVal requested
          (registerBoth requested canonical loaded st).loadedLibraries =
        some loaded ∧
      findVal canonical
          (registerBoth requested canonical loaded st).loadedLibraries =
        some loaded) ∧
    (∀ (env : Env) (name : String) (st st' : LoaderState)
        (tr : List String) (u : Unit),
      enableLibrary env name st = (.ok u, st', tr) →
      name ∈ st'.enabledLibraries) ∧
    (∀ (st : LoaderState) (ln1 ln2 : String) (lib : LoadedLibrary),
      st.enabledLibraries = [ln1, ln2] →
      findVal ln1 st.loadedLibraries = some lib →
      findVal ln2 st.loadedLibraries = some lib →
      search ⟨none, none, none, none, none⟩ st =
        presetEntriesOf lib ++ presetEntriesOf lib ∧
      (∀ q : String,
        (fuzzyRank q st).Perm
          ((((presetEntriesOf lib).map
              (fun e => (e, fuzzyScore (jsLower q) e))).filter
            (fun s => decide (0 < s.2))) ++
           (((presetEntriesOf lib).map
              (fun e => (e, fuzzyScore (jsLower q) e))).filter
            (fun s => decide (0 < s.2)))))) ∧
    search ⟨none, none, none, none, none⟩
      ((enableLibrary aliasDemoEnv "FluidR3 GM"
        ((enableLibrary aliasDemoEnv "FluidR3_GM"
          (mkLoader "b" 128 256)).2.1)).2.1) =
      [⟨"pno", "p.json", "sampler", [], none⟩,
       ⟨"pno", "p.json", "sampler", [], none⟩] := by
  refine ⟨?_, ?_, ?_, by decide⟩
  · intro requested canonical loaded st h
    unfold registerBoth registerLib
    rw [if_pos h]
    constructor
    · rw [findVal_mapSet_other _ _ _ _ (fun e => h e.symm),
        findVal_mapSet_self]
    · rw [findVal_mapSet_self]
  · intro env name st st' tr u h
    rcases hl : loadLibrary env name st with ⟨r, st1, tr1⟩
    unfold enableLibrary at h
    rw [hl] at h
    rcases r with e | lib
    · cases h
    · obtain ⟨-, h2, -⟩ : Except.ok () = Except.ok (ε := Err) u ∧
          ({ st1 with enabledLibraries := setAdd name st1.enabledLibraries } :
            LoaderState) = st' ∧ tr1 = tr := by
        simpa [Prod.ext_iff] using h
      rw [← h2]
      exact mem_setAdd_self name st1.enabledLibraries
  · intro st ln1 ln2 lib hen hfd1 hfd2
    have hge : getEnabledPresets st =
        (presetEntriesOf lib).map (fun p => (ln1, p)) ++
        (presetEntriesOf lib).map (fun p => (ln2, p)) := by
      unfold getEnabledPresets
      rw [hen]
      simp [hfd1, hfd2]
    constructor
    · show ((getEnabledPresets st).map (fun r => r.2)) = _
      rw [hge, List.map_append, List.map_map, List.map_map]
      simp
    · intro q
      unfold fuzzyRank
      refine (sortByScoreDesc_perm _).trans ?_
      rw [hge, List.map_append, List.filter_append, List.map_map,
        List.map_map]
      have hcomp : ∀ ln : String,
          ((fun r : String × PresetEntry => (r.2, fuzzyScore (jsLower q) r.2)) ∘
            (fun p : PresetEntry => (ln, p))) =
          (fun e : PresetEntry => (e, fuzzyScore (jsLower q) e)) := by
        intro ln
        funext e
        rfl
      rw [hcomp ln1, hcomp ln2]

theorem alias_double_enumeration_witness :
    findVal "alias"
        (registerBoth "alias" "Canonical"
          (⟨⟨"L", []⟩, "b/L"⟩ : LoadedLibrary)
          (mkLoader "b" 128 256)).loadedLibraries =
      some (⟨⟨"L", []⟩, "b/L"⟩ : LoadedLibrary) ∧
    findVal "Canonical"
        (registerBoth "alias" "Canonical"
          (⟨⟨"L", []⟩, "b/L"⟩ : LoadedLibrary)
          (mkLoader "b" 128 256)).loadedLibraries =
      some (⟨⟨"L", []⟩, "b/L"⟩ : LoadedLibrary) :=
  alias_double_enumeration.1 "alias" "Canonical" ⟨⟨"L", []⟩, "b/L"⟩
    (mkLoader "b" 128 256) (by decide)


-- ── Audio decoding (`decodeAudio`, lines 502–581) ──

/-- Value of one base64 alphabet character (`atob`). -/
def b64Val (c : Char) : Option Nat :=
  if 'A' ≤ c ∧ c ≤ 'Z' then some (c.toNat - 65)
  else if 'a' ≤ c ∧ c ≤ 'z' then some (c.toNat - 71)
  else if '0' ≤ c ∧ c ≤ '9' then some (c.toNat + 4)
  else if c = '+' then some 62
  else if c = '/' then some 63
  else none

/-- Decode 6-bit values into bytes: full groups of four give three bytes, a
final group of two or three gives one or two; `none` for a lone trailing
character (invalid base64 length). -/
def b64Bytes : List Nat → Option (List Nat)
  | [] => some []
  | [_] => none
  | [a, b] => some [a * 4 + b / 16]
  | [a, b, c] => some [a * 4 + b / 16, (b % 16) * 16 + c / 4]
  | a :: b :: c :: d :: rest =>
    (b64Bytes rest).map (fun bs =>
      (a * 4 + b / 16) :: ((b % 16) * 16 + c / 4) :: ((c % 4) * 64 + d) :: bs)

/-- Strip up to two trailing `'='` padding characters. -/
def stripPad (l : List Char) : List Char :=
  match l.reverse with
  | '=' :: '=' :: rest => rest.reverse
  | '=' :: rest => rest.reverse
  | _ => l

/-- JS `atob`: base64-decode a string to bytes; `none` models the thrown
`InvalidCharacterError` (whitespace forgiveness is not modelled — the
loader only ever feeds it embedded payloads). -/
def jsAtob (s : String) : Option (List Nat) :=
  match (stripPad s.data).mapM b64Val with
  | none => none
  | some vals => b64Bytes vals

/-- Reassemble bytes into little-endian 32-bit words, the bit patterns of
`new Float32Array(bytes.buffer)`; `none` models the `RangeError` thrown
when the byte length is not a multiple of 4. -/
def leWords : List Nat → Option (List Nat)
  | [] => some []
  | b0 :: b1 :: b2 :: b3 :: rest =>
    (leWords rest).map (fun ws =>
      (b0 + 256 * b1 + 65536 * b2 + 16777216 * b3) :: ws)
  | _ => none

/-- `this.audioCache.set(cacheKey, buf)` as a state update. -/
def cacheAudio (key : String) (buf : AudioBuffer) (st : LoaderState) :
    LoaderState :=
  { st with audioCache := st.audioCache.set key buf }

/-- A cache hit (`has` + `get!` in the source) updates the LRU order. -/
def cacheHit (cache' : LRUCache String AudioBuffer) (st : LoaderState) :
    LoaderState :=
  { st with audioCache := cache' }

/-- The shared fetch-then-decode tail of the `external` and
`contentAddressed` arms (lines 527–529, 539–541, 578–580). -/
def fetchAndDecode (env : Env) (url key : String) (st : LoaderState) :
    Except Err AudioBuffer × LoaderState × List String :=
  match env.fetchBytes url with
  | .error e => (.error e, st, [url])
  | .ok bytes =>
    match env.decodeAudioData bytes with
    | .error e => (.error e, st, [url])
    | .ok buf => (.ok buf, cacheAudio key buf st, [url])

/-- The `inlinePcm` arm (lines 559–575): no fetch, no codec decoder —
base64 → bytes → little-endian f32 words → a fresh single-channel buffer at
the declared sample rate (`ctx.createBuffer(1, len, rate)` +
`copyToChannel`), which is cached and returned.  The cache probe uses
`get`, which promotes on a hit, matching `has` + `get!` in the source. -/
def decodeInlinePcm (data : String) (sampleRate : Nat) (st : LoaderState) :
    Except Err AudioBuffer × LoaderState :=
  match st.audioCache.get ("pcm:" ++ (⟨data.data.take 32⟩ : String)) with
  | (some buf, cache') => (.ok buf, cacheHit cache' st)
  | (none, _) =>
    match jsAtob data with
    | none => (.error .invalidBase64, st)
    | some bytes =>
      match leWords bytes with
      | none => (.error .rangeError, st)
      | some ws =>
        (.ok ⟨1, ws.length, sampleRate, ws⟩,
         cacheAudio ("pcm:" ++ (⟨data.data.take 32⟩ : String))
           ⟨1, ws.length, sampleRate, ws⟩ st)

/-- `decodeAudio(ref_, presetUrl)` (lines 502–581). -/
def decodeAudio (env : Env) (ref_ : AudioReference)
    (presetUrl : Option String) (st : LoaderState) :
    Except Err AudioBuffer × LoaderState × List String :=
  if st.audioContextSet = false then (.error .noAudioContext, st, [])
  else
    match ref_ with
    | .external path url sha256 =>
      match (match path with | some p => some p | none => url) with
      | none => (.error .invalidReference, st, [])
      | some filePath =>
        match presetUrl with
        | some pu =>
          match sha256 with
          | some sha =>
            match st.audioCache.get sha with
            | (some buf, cache') => (.ok buf, cacheHit cache' st, [])
            | (none, _) =>
              fetchAndDecode env (dirOf pu ++ "/" ++ filePath) sha st
          | none =>
            match st.audioCache.get (dirOf pu ++ "/" ++ filePath) with
            | (some buf, cache') => (.ok buf, cacheHit cache' st, [])
            | (none, _) =>
              fetchAndDecode env (dirOf pu ++ "/" ++ filePath)
                (dirOf pu ++ "/" ++ filePath) st
        | none =>
          match sha256 with
          | some sha =>
            match st.audioCache.get sha with
            | (some buf, cache') => (.ok buf, cacheHit cache' st, [])
            | (none, _) =>
              fetchAndDecode env (st.baseUrl ++ "/" ++ filePath) sha st
          | none =>
            match st.audioCache.get (st.baseUrl ++ "/" ++ filePath) with
            | (some buf, cache') => (.ok buf, cacheHit cache' st, [])
            | (none, _) =>
              fetchAndDecode env (st.baseUrl ++ "/" ++ filePath)
                (st.baseUrl ++ "/" ++ filePath) st
    | .contentAddressed sha codec =>
      match st.audioCache.get sha with
      | (some buf, cache') => (.ok buf, cacheHit cache' st, [])
      | (none, _) =>
        fetchAndDecode env (st.baseUrl ++ "/samples/" ++ sha ++ "." ++ codec)
          sha st
    | .inlineFile data =>
      match st.audioCache.get
          ("inline:" ++ (⟨data.data.take 32⟩ : String)) with
      | (some buf, cache') => (.ok buf, cacheHit cache' st, [])
      | (none, _) =>
        match jsAtob data with
        | none => (.error .invalidBase64, st, [])
        | some bytes =>
          match env.decodeAudioData bytes with
          | .error e => (.error e, st, [])
          | .ok buf =>
            (.ok buf,
             cacheAudio ("inline:" ++ (⟨data.data.take 32⟩ : String)) buf st,
             [])
    | .inlinePcm data sampleRate =>
      match decodeInlinePcm data sampleRate st with
      | (r, st') => (r, st', [])

/-- Environment whose fetch and decode capabilities always fail — used to
exhibit that the `inlinePcm` path consults neither. -/
def failEnv : Env :=
  ⟨fun u => .error (.fetchFailed u), fun u => .error (.fetchFailed u),
   fun u => .error (.fetchFailed u), fun _ => .error .decodeFailed⟩

/-- A fresh loader with an audio context set. -/
def pcmDemoState : LoaderState :=
  { mkLoader "b" 128 256 with audioContextSet := true }

/-- **C8**: decoding an `inlinePcm` reference is independent of the fetch
environment and the preset URL, performs no network fetch (empty trace) and
never invokes the external decode capability; on a cache miss with a valid
payload it yields a fresh single-channel buffer over the decoded
little-endian 32-bit float words at the declared rate; in particular a
4-sample payload at 22050 Hz decodes (under an environment whose fetch and
decode capabilities always fail) to a 1-channel length-4 buffer at 22050. -/
theorem inlinePcm_pure_decode :
    (∀ (env env' : Env) (data : String) (rate : Nat)
        (pUrl pUrl' : Option String) (st : LoaderState),
      decodeAudio env (.inlinePcm data rate) pUrl st =
        decodeAudio env' (.inlinePcm data rate) pUrl' st) ∧
    (∀ (env : Env) (data : String) (rate : Nat) (pUrl : Option String)
        (st : LoaderState),
      (decodeAudio env (.inlinePcm data rate) pUrl st).2.2 = []) ∧
    (∀ (env : Env) (data : String) (rate : Nat) (pUrl : Option String)
        (st : LoaderState) (bytes ws : List Nat),
      st.audioContextSet = true →
      findVal ("pcm:" ++ (⟨data.data.take 32⟩ : String))
        st.audioCache.entries = none →
      jsAtob data = some bytes →
      leWords bytes = some ws →
      (decodeAudio env (.inlinePcm data rate) pUrl st).1 =
        .ok ⟨1, ws.length, rate, ws⟩) ∧
    (decodeAudio failEnv (.inlinePcm "AAAAAAAAAAAAAAAAAAAAAA==" 22050) none
        pcmDemoState).1 = .ok ⟨1, 4, 22050, [0, 0, 0, 0]⟩ := by
  refine ⟨?_, ?_, ?_, rfl⟩
  · intro env env' data rate pUrl pUrl' st
    unfold decodeAudio
    by_cases h : st.audioContextSet = false
    · simp [h]
    · simp only [h, if_false]
  · intro env data rate pUrl st
    unfold decodeAudio
    by_cases h : st.audioContextSet = false
    · simp [h]
    · simp only [h, if_false]
      rcases hp : decodeInlinePcm data rate st with ⟨r, st'⟩
      simp
  · intro env data rate pUrl st bytes ws hctx hmiss hatob hwords
    unfold decodeAudio
    rw [hctx]
    simp only [Bool.true_eq_false, if_false]
    unfold decodeInlinePcm
    unfold LRUCache.get
    simp only [hmiss, hatob, hwords]

theorem inlinePcm_pure_decode_witness :
    (decodeAudio failEnv (.inlinePcm "AAAAAAAAAAAAAAAAAAAAAA==" 22050) none
        pcmDemoState).1 =
      .ok ⟨1, ([0, 0, 0, 0] : List Nat).length, 22050, [0, 0, 0, 0]⟩ :=
  inlinePcm_pure_decode.2.2.1 failEnv "AAAAAAAAAAAAAAAAAAAAAA==" 22050 none
    pcmDemoState [0, 0, 0, 0, 0, 0, 0, 0, 0, 0, 0, 0, 0, 0, 0, 0]
    [0, 0, 0, 0] (by decide) (by decide) (by decide) (by decide)

-- ── Sampler-zone decoding (`decodeSamplerZones`, lines 586–599) ──

/-- Sequential model of the `Promise.all` over `config.zones` (§5 of the
spec: cooperative single-threaded execution): zones resolve in order, and
the first rejection becomes the overall rejection. -/
def decodeZonesGo (env : Env) (presetUrl : Option String) :
    List SampleZone → LoaderState →
    Except Err (List (SampleZone × AudioBuffer)) × LoaderState × List String
  | [], st => (.ok [], st, [])
  | z :: rest, st =>
    match decodeAudio env z.audio presetUrl st with
    | (.error e, st', tr) => (.error e, st', tr)
    | (.ok buf, st', tr) =>
      match decodeZonesGo env presetUrl rest st' with
      | (.error e, st'', tr') => (.error e, st'', tr ++ tr')
      | (.ok m, st'', tr') => (.ok ((z, buf) :: m), st'', tr ++ tr')

/-- `decodeSamplerZones(config, presetUrl)`: zone-to-buffer map (modelled as
an association list in zone order, zones being identity keys in the JS
`Map`); all-or-nothing. -/
def decodeSamplerZones (env : Env) (config : SamplerConfig)
    (presetUrl : Option String) (st : LoaderState) :
    Except Err (List (SampleZone × AudioBuffer)) × LoaderState × List String :=
  decodeZonesGo env presetUrl config.zones st

theorem decodeZonesGo_ok (env : Env) (pUrl : Option String)
    (zones : List SampleZone) :
    ∀ (st st' : LoaderState) (m : List (SampleZone × AudioBuffer))
      (tr : List String),
      decodeZonesGo env pUrl zones st = (.ok m, st', tr) →
      m.map Prod.fst = zones := by
  induction zones with
  | nil =>
    intro st st' m tr h
    obtain ⟨h1, -, -⟩ : Except.ok ([] : List (SampleZone × AudioBuffer)) =
        Except.ok (ε := Err) m ∧ st = st' ∧ ([] : List String) = tr := by
      simpa [decodeZonesGo, Prod.ext_iff] using h
    cases h1
    rfl
  | cons z rest ih =>
    intro st st' m tr h
    unfold decodeZonesGo at h
    rcases hd : decodeAudio env z.audio pUrl st with ⟨r, st1, tr1⟩
    rw [hd] at h
    rcases r with e | buf
    · cases h
    · have h' : (match decodeZonesGo env pUrl rest st1 with
          | (.error e, st'', tr') =>
            (Except.error (α := List (SampleZone × AudioBuffer)) e, st'',
             tr1 ++ tr')
          | (.ok m', st'', tr') =>
            (.ok ((z, buf) :: m'), st'', tr1 ++ tr')) = (.ok m, st', tr) := h
      rcases hrec : decodeZonesGo env pUrl rest st1 with ⟨r', st2, tr2⟩
      rw [hrec] at h'
      rcases r' with e | m'
      · cases h'
      · obtain ⟨h1, -, -⟩ : Except.ok ((z, buf) :: m') =
            Except.ok (ε := Err) m ∧ st2 = st' ∧ tr1 ++ tr2 = tr := by
          simpa [Prod.ext_iff] using h'
        cases h1
        simp only [List.map_cons]
        rw [ih st1 st2 m' tr2 hrec]

theorem decodeZonesGo_error (env : Env) (pUrl : Option String)
    (zones : List SampleZone) :
    ∀ (st st' : LoaderState) (e : Err) (tr : List String),
      decodeZonesGo env pUrl zones st = (.error e, st', tr) →
      ∃ pre z post m stMid trMid,
        zones = pre ++ z :: post ∧
        decodeZonesGo env pUrl pre st = (.ok m, stMid, trMid) ∧
        (decodeAudio env z.audio pUrl stMid).1 = .error e := by
  induction zones with
  | nil =>
    intro st st' e tr h
    exact absurd h (by simp [decodeZonesGo])
  | cons z rest ih =>
    intro st st' e tr h
    unfold decodeZonesGo at h
    rcases hd : decodeAudio env z.audio pUrl st with ⟨r, st1, tr1⟩
    rw [hd] at h
    rcases r with e' | buf
    · obtain ⟨h1, -, -⟩ : Except.error
          (α := List (SampleZone × AudioBuffer)) e' =
          Except.error e ∧ st1 = st' ∧ tr1 = tr := by
        simpa [Prod.ext_iff] using h
      cases h1
      refine ⟨[], z, rest, [], st, [], rfl, rfl, ?_⟩
      rw [hd]
    · have h' : (match decodeZonesGo env pUrl rest st1 with
          | (.error e, st'', tr') =>
            (Except.error (α := List (SampleZone × AudioBuffer)) e, st'',
             tr1 ++ tr')
          | (.ok m', st'', tr') =>
            (.ok ((z, buf) :: m'), st'', tr1 ++ tr')) = (.error e, st', tr) := h
      rcases hrec : decodeZonesGo env pUrl rest st1 with ⟨r', st2, tr2⟩
      rw [hrec] at h'
      rcases r' with e' | m'
      · obtain ⟨h1, -, -⟩ : Except.error
            (α := List (SampleZone × AudioBuffer)) e' =
            Except.error e ∧ st2 = st' ∧ tr1 ++ tr2 = tr := by
          simpa [Prod.ext_iff] using h'
        cases h1
        obtain ⟨pre, z', post, m, stMid, trMid, hsplit, hok, herr⟩ :=
          ih st1 st2 e tr2 hrec
        refine ⟨z :: pre, z', post, (z, buf) :: m, stMid, tr1 ++ trMid,
          by rw [hsplit, List.cons_append], ?_, herr⟩
        unfold decodeZonesGo
        rw [hd]
        show (match decodeZonesGo env pUrl pre st1 with
            | (.error e, st'', tr') =>
              (Except.error (α := List (SampleZone × AudioBuffer)) e, st'',
               tr1 ++ tr')
            | (.ok m', st'', tr') =>
              (.ok ((z, buf) :: m'), st'', tr1 ++ tr')) =
          (.ok ((z, buf) :: m), stMid, tr1 ++ trMid)
        rw [hok]
      · cases h'

/-- **C9**: `decodeSamplerZones` is all-or-nothing: on success the returned
mapping covers exactly the zones of the config (in order, identity-keyed);
on failure the overall result is the failing zone's own error — the zones
before it had resolved, the failing zone's `decodeAudio` produced exactly
that error, and no partial map is returned to the caller. -/
theorem decodeSamplerZones_all_or_nothing (env : Env) (config : SamplerConfig)
    (pUrl : Option String) (st : LoaderState) :
    (∀ (m : List (SampleZone × AudioBuffer)) (st' : LoaderState)
        (tr : List String),
      decodeSamplerZones env config pUrl st = (.ok m, st', tr) →
      m.map Prod.fst = config.zones) ∧
    (∀ (e : Err) (st' : LoaderState) (tr : List String),
      decodeSamplerZones env config pUrl st = (.error e, st', tr) →
      ∃ pre z post m stMid trMid,
        config.zones = pre ++ z :: post ∧
        decodeZonesGo env pUrl pre st = (.ok m, stMid, trMid) ∧
        (decodeAudio env z.audio pUrl stMid).1 = .error e) :=
  ⟨fun m st' tr h => decodeZonesGo_ok env pUrl config.zones st st' m tr h,
   fun e st' tr h => decodeZonesGo_error env pUrl config.zones st st' e tr h⟩

theorem decodeSamplerZones_all_or_nothing_witness :
    ([((⟨.inlinePcm "AAAAAAAAAAAAAAAAAAAAAA==" 22050⟩ : SampleZone),
       (⟨1, 4, 22050, [0, 0, 0, 0]⟩ : AudioBuffer))].map Prod.fst) =
      (⟨[⟨.inlinePcm "AAAAAAAAAAAAAAAAAAAAAA==" 22050⟩]⟩ :
        SamplerConfig).zones :=
  (decodeSamplerZones_all_or_nothing failEnv
      ⟨[⟨.inlinePcm "AAAAAAAAAAAAAAAAAAAAAA==" 22050⟩]⟩ none pcmDemoState).1
    [(⟨.inlinePcm "AAAAAAAAAAAAAAAAAAAAAA==" 22050⟩,
      ⟨1, 4, 22050, [0, 0, 0, 0]⟩)]
    (cacheAudio "pcm:AAAAAAAAAAAAAAAAAAAAAA=="
      ⟨1, 4, 22050, [0, 0, 0, 0]⟩ pcmDemoState)
    [] rfl


-- ── Preset loading and preloading (lines 386–494, 627–668) ──

/-- `resolvePresetUrl(path, libraryName)` (lines 471–479). -/
def resolvePresetUrl (path : String) (libraryName : Option String)
    (st : LoaderState) : String :=
  match libraryName with
  | some ln =>
    match findVal ln st.loadedLibraries with
    | some lib => lib.baseUrl ++ "/" ++ path
    | none => st.baseUrl ++ "/" ++ path
  | none => st.baseUrl ++ "/" ++ path

/-- `findLibraryForEntry(entry)` (lines 459–468): the first loaded library
(in registration order) whose index has a preset entry with the same name
and path. -/
def findLibraryForEntry (entry : PresetEntry) (st : LoaderState) :
    Option String :=
  (st.loadedLibraries.find? (fun p =>
    p.2.index.entries.any (fun e => match e with
      | .preset q => q.name == entry.name && q.path == entry.path
      | .index _ => false))).map (fun p => p.1)

/-- `_fetchPreset(url, cacheKey)` (lines 482–494): descriptor-cache probe
(`has` + `get!`, modelled by the promoting `get`), else fetch and cache. -/
def fetchPresetCached (env : Env) (url cacheKey : String) (st : LoaderState) :
    Except Err PresetDescriptor × LoaderState × List String :=
  match st.presetCache.get cacheKey with
  | (some p, cache') => (.ok p, { st with presetCache := cache' }, [])
  | (none, _) =>
    match env.fetchPreset url with
    | .error e => (.error e, st, [url])
    | .ok preset =>
      (.ok preset,
       { st with presetCache := st.presetCache.set cacheKey preset }, [url])

/-- `name.indexOf('/') > 0` split into library prefix and preset name. -/
def splitQualified (name : String) : Option (String × String) :=
  match name.data.findIdx? (fun c => c == '/') with
  | some i =>
    if 0 < i then
      some (⟨name.data.take i⟩, ⟨name.data.drop (i + 1)⟩)
    else none
  | none => none

structure PresetContext where
  preset : PresetDescriptor
  presetUrl : String
  entry : PresetEntry
  libraryName : Option String
deriving Repr, DecidableEq

/-- The unqualified fallback of `loadPresetWithContext` (lines 423–432):
search all enabled libraries by name; the first hit is fetched. -/
def loadPresetFallback (env : Env) (name : String) (st : LoaderState)
    (tr : List String) :
    Except Err PresetContext × LoaderState × List String :=
  match search ⟨none, none, none, none, some name⟩ st with
  | [] => (.error (.presetNotFound name), st, tr)
  | entry :: _ =>
    match fetchPresetCached env
        (resolvePresetUrl entry.path (findLibraryForEntry entry st) st)
        entry.path st with
    | (.error e, st2, tr2) => (.error e, st2, tr ++ tr2)
    | (.ok preset, st2, tr2) =>
      (.ok ⟨preset,
        resolvePresetUrl entry.path (findLibraryForEntry entry st) st,
        entry, findLibraryForEntry entry st⟩, st2, tr ++ tr2)

/-- `loadPresetWithContext(name)` (lines 396–433). -/
def loadPresetWithContext (env : Env) (name : String) (st : LoaderState) :
    Except Err PresetContext × LoaderState × List String :=
  match splitQualified name with
  | some (libName, presetName) =>
    match (if libName ∈ st.enabledLibraries then (.ok (), st, [])
           else enableLibrary env libName st) with
    | (.error e, st1, tr) => (.error e, st1, tr)
    | (.ok _, st1, tr) =>
      match search ⟨some libName, none, none, none, some presetName⟩ st1 with
      | entry :: _ =>
        match fetchPresetCached env
            (resolvePresetUrl entry.path (some libName) st1) entry.path st1 with
        | (.error e, st2, tr2) => (.error e, st2, tr ++ tr2)
        | (.ok preset, st2, tr2) =>
          (.ok ⟨preset, resolvePresetUrl entry.path (some libName) st1,
            entry, some libName⟩, st2, tr ++ tr2)
      | [] => loadPresetFallback env name st1 tr
  | none => loadPresetFallback env name st []

/-- `loadPreset(name)` (lines 386–389). -/
def loadPreset (env : Env) (name : String) (st : LoaderState) :
    Except Err PresetDescriptor × LoaderState × List String :=
  match loadPresetWithContext env name st with
  | (.error e, st', tr) => (.error e, st', tr)
  | (.ok ctx, st', tr) => (.ok ctx.preset, st', tr)

/-- The `"Library/Preset"` prefixes of the requested names, deduplicated in
first-appearance order (`Set` + `Array.from`, lines 633–639). -/
def libsToLoad (names : List String) : List String :=
  names.foldl (fun acc name =>
    match splitQualified name with
    | some (libName, _) => setAdd libName acc
    | none => acc) []

/-- Enable every required library (lines 641–644).  The `Promise.all` is
modelled as in-order sequential execution; the first failure rejects the
whole phase, as `Promise.all` rejects — this phase is NOT inside the
per-name `try/catch`. -/
def enableAll (env : Env) : List String → LoaderState →
    Except Err Unit × LoaderState × List String
  | [], st => (.ok (), st, [])
  | lib :: rest, st =>
    match enableLibrary env lib st with
    | (.error e, st', tr) => (.error e, st', tr)
    | (.ok _, st', tr) =>
      match enableAll env rest st' with
      | (r, st'', tr') => (r, st'', tr ++ tr')

/-- One name's preload step with its `try/catch` (lines 647–665): any
failure (missing preset, fetch error, zone-decode error) is converted into
a logged warning (the name is appended to the warning list) instead of
propagating.  Returns state, fetch trace, warnings. -/
def preloadOne (env : Env) (name : String) (st : LoaderState) :
    LoaderState × List String × List String :=
  match loadPreset env name st with
  | (.error _, st', tr) => (st', tr, [name])
  | (.ok preset, st', tr) =>
    match preset.node with
    | none => (st', tr, [])
    | some node =>
      if node.type == "sampler" then
        match node.config with
        | none => (st', tr, [])
        | some config =>
          match search ⟨none, none, none, none, some name⟩ st' with
          | [] => (st', tr, [])
          | entry :: _ =>
            match decodeSamplerZones env config
                (some (resolvePresetUrl entry.path
                  (findLibraryForEntry entry st') st')) st' with
            | (.error _, st'', tr') => (st'', tr ++ tr', [name])
            | (.ok _, st'', tr') => (st'', tr ++ tr', [])
      else (st', tr, [])

/-- The per-name phase of `preloadAll`: every name is processed, failures
only accumulate warnings. -/
def preloadEach (env : Env) : List String → LoaderState →
    LoaderState × List String × List String
  | [], st => (st, [], [])
  | name :: rest, st =>
    match preloadOne env name st with
    | (st', tr, ws) =>
      match preloadEach env rest st' with
      | (st'', tr', ws') => (st'', tr ++ tr', ws ++ ws')

/-- `preloadAll(presetNames)` (lines 627–668): load the root index, enable
the libraries named by `"Library/Preset"` prefixes, then best-effort load
(and, for samplers, zone-decode) each preset.  Returns the overall result,
the final state, the fetch trace, and the warned (failed) names. -/
def preloadAll (env : Env) (presetNames : List String) (st : LoaderState) :
    Except Err Unit × LoaderState × List String × List String :=
  match loadRootIndex env st with
  | (.error e, st1, tr) => (.error e, st1, tr, [])
  | (.ok _, st1, tr) =>
    match enableAll env (libsToLoad presetNames) st1 with
    | (.error e, st2, tr2) => (.error e, st2, tr ++ tr2, [])
    | (.ok _, st2, tr2) =>
      match preloadEach env presetNames st2 with
      | (st3, tr3, ws) => (.ok (), st3, tr ++ tr2 ++ tr3, ws)

/-- Fetch environment for the preload scenario: one library `LibA` holding
one non-sampler preset `X` at path `X.json`. -/
def preloadDemoEnv : Env :=
  ⟨fun url =>
    if url = "b/index.json" then
      .ok ⟨"root", [.index ⟨"LibA", "LibA/index.json"⟩]⟩
    else if url = "b/LibA/index.json" then
      .ok ⟨"LibA", [.preset ⟨"X", "X.json", "synth", [], none⟩]⟩
    else .error (.fetchFailed url),
   fun url =>
    if url = "b/LibA/X.json" then .ok ⟨some ⟨"synth", none⟩⟩
    else .error (.fetchFailed url),
   fun u => .error (.fetchFailed u),
   fun _ => .error .decodeFailed⟩

/-- **C2 counterexample**: `preloadAll` is not failure-proof — a name whose
library prefix cannot be resolved fails the *enable* phase, which is
outside the per-name `try/catch`, and the whole call rejects. -/
theorem preloadAll_rejects_on_library_failure :
    (preloadAll preloadDemoEnv ["MissingLib/X"] (mkLoader "b" 128 256)).1 =
      Except.error (Err.libraryNotFound "MissingLib") := by
  rfl

/-- **C2** (amended).  Once the root index has loaded and the enable phase
has succeeded, the per-name phase never fails the overall call: each
name's failure (missing preset, fetch error, decode error) is caught and
logged, and does not abort the remaining names.  In particular
`preloadAll(["LibA/X", "missing-preset"])` resolves overall, completes
`"LibA/X"` (its descriptor is fetched and cached), and logs exactly
`"missing-preset"`.  However, a root-index fetch failure or a failure to
enable a `"Library/Preset"`-prefixed name's library rejects the whole
call (see the counterexample). -/
theorem preloadAll_best_effort_per_name (env : Env) (names : List String)
    (st : LoaderState) (root : PresetIndex) (st1 : LoaderState)
    (tr1 : List String) (u : Unit) (st2 : LoaderState) (tr2 : List String)
    (hroot : loadRootIndex env st = (.ok root, st1, tr1))
    (hen : enableAll env (libsToLoad names) st1 = (.ok u, st2, tr2)) :
    (preloadAll env names st).1 = .ok () ∧
    (preloadAll preloadDemoEnv ["LibA/X", "missing-preset"]
        (mkLoader "b" 128 256)).1 = .ok () ∧
    (preloadAll preloadDemoEnv ["LibA/X", "missing-preset"]
        (mkLoader "b" 128 256)).2.2.2 = ["missing-preset"] ∧
    ((preloadAll preloadDemoEnv ["LibA/X", "missing-preset"]
        (mkLoader "b" 128 256)).2.1.presetCache.has "X.json") = true := by
  refine ⟨?_, rfl, rfl, rfl⟩
  unfold preloadAll
  rw [hroot]
  show (match enableAll env (libsToLoad names) st1 with
    | (.error e, st2, tr2) =>
      (Except.error (α := Unit) e, st2, tr1 ++ tr2, ([] : List String))
    | (.ok _, st2, tr2) =>
      match preloadEach env names st2 with
      | (st3, tr3, ws) =>
        (Except.ok (), st3, tr1 ++ tr2 ++ tr3, ws)).1 = Except.ok ()
  rw [hen]

theorem preloadAll_best_effort_per_name_witness :
    ((preloadAll preloadDemoEnv ["LibA/X"] (mkLoader "b" 128 256)).1 =
      .ok ()) ∧
    ((preloadAll preloadDemoEnv ["LibA/X", "missing-preset"]
        (mkLoader "b" 128 256)).1 = .ok ()) ∧
    ((preloadAll preloadDemoEnv ["LibA/X", "missing-preset"]
        (mkLoader "b" 128 256)).2.2.2 = ["missing-preset"]) ∧
    (((preloadAll preloadDemoEnv ["LibA/X", "missing-preset"]
        (mkLoader "b" 128 256)).2.1.presetCache.has "X.json") = true) :=
  preloadAll_best_effort_per_name preloadDemoEnv ["LibA/X"]
    (mkLoader "b" 128 256)
    ⟨"root", [.index ⟨"LibA", "LibA/index.json"⟩]⟩
    ((loadRootIndex preloadDemoEnv (mkLoader "b" 128 256)).2.1)
    ["b/index.json"] ()
    ((enableAll preloadDemoEnv (libsToLoad ["LibA/X"])
      ((loadRootIndex preloadDemoEnv (mkLoader "b" 128 256)).2.1)).2.1)
    ((enableAll preloadDemoEnv (libsToLoad ["LibA/X"])
      ((loadRootIndex preloadDemoEnv (mkLoader "b" 128 256)).2.1)).2.2)
    rfl rfl

end Songwalker
